import Mathlib

set_option maxHeartbeats 1000000
set_option linter.unnecessarySeqFocus false

/-!
Shallow embedding of the dynamic configuration subsystem of the rpc-gateway
repository: the flat `configs` table (store/mysql conf store), its
upsert/delete/load operations, the reorg version counter, the three domain
decoders (ACL allow lists, rate limit strategies, node route groups) and the
md5 change fingerprints computed by the bulk loaders.

Go strings are modelled as lists of unicode characters.  The reserved name
keys used by the store are ASCII, so byte indices into them coincide with
character indices.
-/

abbrev Str := List Char

/-! ### strconv: Atoi / Itoa -/

/-- Decimal digit value of a character, as accepted by `strconv.Atoi`. -/
def digitVal? (c : Char) : Option Nat :=
  if 48 ≤ c.toNat ∧ c.toNat ≤ 57 then some (c.toNat - 48) else none

/-- Digit values of a run of characters; `none` if any is not a digit. -/
def digitsOf : Str → Option (List Nat)
  | [] => some []
  | c :: cs =>
    match digitVal? c, digitsOf cs with
    | some d, some ds => some (d :: ds)
    | _, _ => none

/-- The digit part of `strconv.Atoi`: a non-empty, all-decimal run of
characters, read as a base-10 number (most significant digit first). -/
def atoiDigits? (cs : Str) : Option Nat :=
  match cs, digitsOf cs with
  | [], _ => none
  | _, some ds => some (Nat.ofDigits 10 ds.reverse)
  | _, none => none

/-- Models Go `strconv.Atoi`: optional single sign, then decimal digits.
(The int-range overflow rejection of `Atoi` is not modelled; the values the
store handles stay far below it.) -/
def atoi? (s : Str) : Option Int :=
  match s with
  | [] => none
  | c :: rest =>
    if c = '-' then (atoiDigits? rest).map (fun n => -(n : Int))
    else if c = '+' then (atoiDigits? rest).map (fun n => (n : Int))
    else (atoiDigits? (c :: rest)).map (fun n => (n : Int))

/-- Decimal representation of a natural number, most significant digit
first, as produced by `strconv.Itoa` on non-negative input. -/
def natToDec (n : Nat) : Str :=
  if n = 0 then ['0'] else ((Nat.digits 10 n).reverse).map Nat.digitChar

/-- Models Go `strconv.Itoa`. -/
def itoa (n : Int) : Str :=
  if n < 0 then '-' :: natToDec n.natAbs else natToDec n.natAbs

/-! ### Bytes of a Go string and md5

`[]byte(value)` is the UTF-8 encoding of the string; `md5.Sum` is the RFC
1321 digest of those bytes.  Machine words are naturals reduced mod 2^32. -/

/-- UTF-8 encoding of one character (the Go `[]byte(string)` conversion). -/
def utf8Char (c : Char) : List Nat :=
  let n := c.toNat
  if n < 128 then [n]
  else if n < 2048 then [192 + n / 64, 128 + n % 64]
  else if n < 65536 then [224 + n / 4096, 128 + (n / 64) % 64, 128 + n % 64]
  else [240 + n / 262144, 128 + (n / 4096) % 64, 128 + (n / 64) % 64, 128 + n % 64]

def utf8Bytes (s : Str) : List Nat := (s.map utf8Char).flatten

/-- The 64 md5 sine constants (RFC 1321). -/
def md5K : List Nat :=
  [0xd76aa478, 0xe8c7b756, 0x242070db, 0xc1bdceee,
   0xf57c0faf, 0x4787c62a, 0xa8304613, 0xfd469501,
   0x698098d8, 0x8b44f7af, 0xffff5bb1, 0x895cd7be,
   0x6b901122, 0xfd987193, 0xa679438e, 0x49b40821,
   0xf61e2562, 0xc040b340, 0x265e5a51, 0xe9b6c7aa,
   0xd62f105d, 0x02441453, 0xd8a1e681, 0xe7d3fbc8,
   0x21e1cde6, 0xc33707d6, 0xf4d50d87, 0x455a14ed,
   0xa9e3e905, 0xfcefa3f8, 0x676f02d9, 0x8d2a4c8a,
   0xfffa3942, 0x8771f681, 0x6d9d6122, 0xfde5380c,
   0xa4beea44, 0x4bdecfa9, 0xf6bb4b60, 0xbebfbc70,
   0x289b7ec6, 0xeaa127fa, 0xd4ef3085, 0x04881d05,
   0xd9d4d039, 0xe6db99e5, 0x1fa27cf8, 0xc4ac5665,
   0xf4292244, 0x432aff97, 0xab9423a7, 0xfc93a039,
   0x655b59c3, 0x8f0ccc92, 0xffeff47d, 0x85845dd1,
   0x6fa87e4f, 0xfe2ce6e0, 0xa3014314, 0x4e0811a1,
   0xf7537e82, 0xbd3af235, 0x2ad7d2bb, 0xeb86d391]

/-- The md5 per-round left-rotation amounts. -/
def md5Shift : List Nat :=
  [7, 12, 17, 22, 7, 12, 17, 22, 7, 12, 17, 22, 7, 12, 17, 22,
   5, 9, 14, 20, 5, 9, 14, 20, 5, 9, 14, 20, 5, 9, 14, 20,
   4, 11, 16, 23, 4, 11, 16, 23, 4, 11, 16, 23, 4, 11, 16, 23,
   6, 10, 15, 21, 6, 10, 15, 21, 6, 10, 15, 21, 6, 10, 15, 21]

def w32 (n : Nat) : Nat := n % 4294967296

def rotl32 (x s : Nat) : Nat := w32 (x <<< s) ||| (x >>> (32 - s))

/-- The md5 round mixing function for round `i`. -/
def md5F (i b c d : Nat) : Nat :=
  if i < 16 then (b &&& c) ||| ((b ^^^ 4294967295) &&& d)
  else if i < 32 then (d &&& b) ||| ((d ^^^ 4294967295) &&& c)
  else if i < 48 then b ^^^ c ^^^ d
  else c ^^^ (b ||| (d ^^^ 4294967295))

/-- The md5 message word index used in round `i`. -/
def md5G (i : Nat) : Nat :=
  if i < 16 then i
  else if i < 32 then (5 * i + 1) % 16
  else if i < 48 then (3 * i + 5) % 16
  else (7 * i) % 16

/-- Little-endian 32-bit word `j` of a 64-byte block. -/
def leWord (block : List Nat) (j : Nat) : Nat :=
  block.getD (4 * j) 0 + 256 * block.getD (4 * j + 1) 0 +
    65536 * block.getD (4 * j + 2) 0 + 16777216 * block.getD (4 * j + 3) 0

/-- One md5 round on the running (a, b, c, d) state. -/
def md5Round (block : List Nat) (i : Nat) : Nat × Nat × Nat × Nat → Nat × Nat × Nat × Nat
  | (a, b, c, d) =>
    let f := w32 (md5F i b c d + a + md5K.getD i 0 + leWord block (md5G i))
    (d, w32 (b + rotl32 f (md5Shift.getD i 0)), b, c)

def md5RoundsAux (block : List Nat) : Nat → Nat → Nat × Nat × Nat × Nat → Nat × Nat × Nat × Nat
  | 0, _, st => st
  | fuel + 1, i, st => md5RoundsAux block fuel (i + 1) (md5Round block i st)

/-- md5 compression of one 64-byte block into the chaining state. -/
def md5Compress (st : Nat × Nat × Nat × Nat) (block : List Nat) : Nat × Nat × Nat × Nat :=
  match st, md5RoundsAux block 64 0 st with
  | (a0, b0, c0, d0), (a, b, c, d) => (w32 (a0 + a), w32 (b0 + b), w32 (c0 + c), w32 (d0 + d))

def md5Blocks : Nat → List Nat → Nat × Nat × Nat × Nat → Nat × Nat × Nat × Nat
  | 0, _, st => st
  | _ + 1, [], st => st
  | fuel + 1, bytes, st => md5Blocks fuel (bytes.drop 64) (md5Compress st (bytes.take 64))

/-- Little-endian bytes of a 64-bit length field. -/
def le64 (n : Nat) : List Nat :=
  [n % 256, n / 256 % 256, n / 65536 % 256, n / 16777216 % 256,
   n / 4294967296 % 256, n / 1099511627776 % 256,
   n / 281474976710656 % 256, n / 72057594037927936 % 256]

/-- Little-endian bytes of one 32-bit state word. -/
def le32 (n : Nat) : List Nat := [n % 256, n / 256 % 256, n / 65536 % 256, n / 16777216 % 256]

/-- md5 padding: a 1 bit, zeros to 56 mod 64, then the bit length. -/
def md5Pad (msg : List Nat) : List Nat :=
  let zeros := (56 + 64 - (msg.length + 1) % 64) % 64
  msg ++ 128 :: List.replicate zeros 0 ++ le64 (8 * msg.length)

/-- `md5.Sum` over a byte sequence: the 16-byte RFC 1321 digest. -/
def md5Sum (msg : List Nat) : List Nat :=
  let padded := md5Pad msg
  match md5Blocks padded.length padded (0x67452301, 0xefcdab89, 0x98badcfe, 0x10325476) with
  | (a, b, c, d) => le32 a ++ le32 b ++ le32 c ++ le32 d

abbrev Digest := List Nat

/-! ### encoding/json

The decoders parse the raw `value` with `json.Unmarshal`, and
`StoreNodeRouteGroup` serialises with `json.Marshal`.  Both are modelled at
the boundary the store uses: JSON values, Go's default (HTML-escaping)
string encoder, and a syntax-checking parser.  Two divergences from Go are
deliberately out of model (neither is reachable from the store's own
output): surrogate `\uXXXX` escapes (Go substitutes U+FFFD) are rejected,
and JSON numbers are kept as their raw literal instead of a float64. -/

/-- The `\x7b` character; written via its code so that braces only ever
occur inside comments. -/
def lbrace : Char := Char.ofNat 123

/-- The `\x7d` character. -/
def rbrace : Char := Char.ofNat 125

inductive Json where
  | null : Json
  | bool : Bool → Json
  | num : Str → Json
  | str : Str → Json
  | arr : List Json → Json
  | obj : List (Str × Json) → Json

instance : Inhabited Json := ⟨Json.null⟩

/-- `\u00xx`-style escape of a code point below 0x10000 (lower-case hex,
as Go emits). -/
def jsonUEscape (n : Nat) : Str :=
  ['\\', 'u', Nat.digitChar (n / 4096), Nat.digitChar (n / 256 % 16),
   Nat.digitChar (n / 16 % 16), Nat.digitChar (n % 16)]

/-- One character of Go's default JSON string encoder: quote and backslash
get two-character escapes, \n \r \t their short forms, other control
characters and the HTML-sensitive characters a `\u00xx` escape, U+2028 and
U+2029 a `\u20xx` escape, everything else passes through. -/
def jsonEscapeChar (c : Char) : Str :=
  if c = '"' then ['\\', '"']
  else if c = '\\' then ['\\', '\\']
  else if c = '\n' then ['\\', 'n']
  else if c = '\r' then ['\\', 'r']
  else if c = '\t' then ['\\', 't']
  else if c.toNat < 32 ∨ c = '<' ∨ c = '>' ∨ c = '&' then jsonUEscape c.toNat
  else if c.toNat = 8232 ∨ c.toNat = 8233 then jsonUEscape c.toNat
  else [c]

def jsonEscape (s : Str) : Str := (s.map jsonEscapeChar).flatten

/-- A JSON string literal, quotes included. -/
def jsonQuote (s : Str) : Str := '"' :: jsonEscape s ++ ['"']

/-- Comma-separated marshalled elements of a `[]string`. -/
def marshalStrElems : List Str → Str
  | [] => []
  | [s] => jsonQuote s
  | s :: rest => jsonQuote s ++ ',' :: marshalStrElems rest

/-- Models `json.Marshal` on a `NodeRouteGroup`: `ID` and `Name` carry the
tag `json:"-"` and are omitted, so the payload is a single `nodes` member.
(Go writes `null` for a nil slice and `[]` for a non-nil empty one; the
model does not distinguish nil from empty and always writes `[]`.) -/
def marshalNodeRouteGroup (nodes : List Str) : Str :=
  lbrace :: jsonQuote "nodes".toList ++ ':' :: '[' :: marshalStrElems nodes ++ [']', rbrace]

/-- Hexadecimal digit value (both cases), for `\uXXXX` escapes. -/
def hexVal? (c : Char) : Option Nat :=
  if 48 ≤ c.toNat ∧ c.toNat ≤ 57 then some (c.toNat - 48)
  else if 97 ≤ c.toNat ∧ c.toNat ≤ 102 then some (c.toNat - 87)
  else if 65 ≤ c.toNat ∧ c.toNat ≤ 70 then some (c.toNat - 55)
  else none

/-- The single-character JSON escapes. -/
def escChar? (c : Char) : Option Char :=
  if c = '"' then some '"'
  else if c = '\\' then some '\\'
  else if c = '/' then some '/'
  else if c = 'b' then some (Char.ofNat 8)
  else if c = 'f' then some (Char.ofNat 12)
  else if c = 'n' then some '\n'
  else if c = 'r' then some '\r'
  else if c = 't' then some '\t'
  else none

/-- Parses the body of a JSON string literal (the opening quote already
consumed); returns the decoded string and the remaining input. -/
def parseStringBody : Str → Option (Str × Str)
  | [] => none
  | c :: rest =>
    if c = '"' then some ([], rest)
    else if c = '\\' then
      match rest with
      | 'u' :: h1 :: h2 :: h3 :: h4 :: r2 =>
        (match hexVal? h1, hexVal? h2, hexVal? h3, hexVal? h4 with
         | some a, some b, some cc, some d =>
           let code := ((a * 16 + b) * 16 + cc) * 16 + d
           if 55296 ≤ code ∧ code ≤ 57343 then none
           else (parseStringBody r2).map (fun p => (Char.ofNat code :: p.1, p.2))
         | _, _, _, _ => none)
      | e :: r2 =>
        (match escChar? e with
         | some ec => (parseStringBody r2).map (fun p => (ec :: p.1, p.2))
         | none => none)
      | [] => none
    else if c.toNat < 32 then none
    else (parseStringBody rest).map (fun p => (c :: p.1, p.2))

/-- Longest leading run of decimal digits. -/
def spanDigits : Str → Str × Str
  | [] => ([], [])
  | c :: cs =>
    if 48 ≤ c.toNat ∧ c.toNat ≤ 57 then
      let p := spanDigits cs
      (c :: p.1, p.2)
    else ([], c :: cs)

/-- JSON integer part: `0`, or a nonzero digit followed by digits. -/
def parseIntPart : Str → Option (Str × Str)
  | [] => none
  | c :: cs =>
    if c = '0' then some (['0'], cs)
    else if 49 ≤ c.toNat ∧ c.toNat ≤ 57 then
      let p := spanDigits cs
      some (c :: p.1, p.2)
    else none

/-- Optional JSON fraction part. -/
def parseFracPart : Str → Option (Str × Str)
  | '.' :: rest =>
    let p := spanDigits rest
    if p.1.isEmpty then none else some ('.' :: p.1, p.2)
  | cs => some ([], cs)

/-- Optional JSON exponent part. -/
def parseExpPart : Str → Option (Str × Str)
  | [] => some ([], [])
  | c :: rest =>
    if c = 'e' ∨ c = 'E' then
      match rest with
      | [] => none
      | s :: rest2 =>
        if s = '+' ∨ s = '-' then
          let p := spanDigits rest2
          if p.1.isEmpty then none else some (c :: s :: p.1, p.2)
        else
          let p := spanDigits rest
          if p.1.isEmpty then none else some (c :: p.1, p.2)
    else some ([], c :: rest)

/-- A JSON number literal, kept raw. -/
def parseNumberLit (cs : Str) : Option (Str × Str) :=
  let sp := match cs with
    | '-' :: r => (['-'], r)
    | _ => (([] : Str), cs)
  match parseIntPart sp.2 with
  | none => none
  | some (ip, cs2) =>
    match parseFracPart cs2 with
    | none => none
    | some (fp, cs3) =>
      match parseExpPart cs3 with
      | none => none
      | some (ep, cs4) => some (sp.1 ++ ip ++ fp ++ ep, cs4)

/-- JSON insignificant whitespace. -/
def isWsChar (c : Char) : Bool :=
  c = ' ' ∨ c = '\t' ∨ c = '\n' ∨ c = '\r'

def skipWs : Str → Str
  | [] => []
  | c :: cs => if isWsChar c then skipWs cs else c :: cs

mutual

/-- One JSON value; the fuel bounds nesting and element count, every
recursive call having consumed at least one character first. -/
def parseValue : Nat → Str → Option (Json × Str)
  | 0, _ => none
  | fuel + 1, cs =>
    match skipWs cs with
    | [] => none
    | c :: rest =>
      if c = '"' then (parseStringBody rest).map (fun p => (.str p.1, p.2))
      else if c = '[' then
        match skipWs rest with
        | ']' :: r2 => some (.arr [], r2)
        | r2 => (parseElems fuel r2).map (fun p => (.arr p.1, p.2))
      else if c = lbrace then
        match skipWs rest with
        | [] => none
        | x :: r3 =>
          if x = rbrace then some (.obj [], r3)
          else (parseMembers fuel (x :: r3)).map (fun p => (.obj p.1, p.2))
      else if c = 't' then
        match rest with
        | 'r' :: 'u' :: 'e' :: r => some (.bool true, r)
        | _ => none
      else if c = 'f' then
        match rest with
        | 'a' :: 'l' :: 's' :: 'e' :: r => some (.bool false, r)
        | _ => none
      else if c = 'n' then
        match rest with
        | 'u' :: 'l' :: 'l' :: r => some (.null, r)
        | _ => none
      else (parseNumberLit (c :: rest)).map (fun p => (.num p.1, p.2))

/-- Non-empty comma-separated array elements up to the closing bracket. -/
def parseElems : Nat → Str → Option (List Json × Str)
  | 0, _ => none
  | fuel + 1, cs =>
    match parseValue fuel cs with
    | none => none
    | some (v, rest) =>
      match skipWs rest with
      | ',' :: r2 => (parseElems fuel r2).map (fun p => (v :: p.1, p.2))
      | ']' :: r2 => some ([v], r2)
      | _ => none

/-- Non-empty comma-separated object members up to the closing brace. -/
def parseMembers : Nat → Str → Option (List (Str × Json) × Str)
  | 0, _ => none
  | fuel + 1, cs =>
    match skipWs cs with
    | '"' :: rest =>
      (match parseStringBody rest with
       | none => none
       | some (key, r1) =>
         match skipWs r1 with
         | ':' :: r2 =>
           (match parseValue fuel r2 with
            | none => none
            | some (v, r3) =>
              match skipWs r3 with
              | [] => none
              | x :: r4 =>
                if x = ',' then (parseMembers fuel r4).map (fun p => ((key, v) :: p.1, p.2))
                else if x = rbrace then some ([(key, v)], r4)
                else none)
         | _ => none)
    | _ => none

end

/-- Models the top-level syntax check of `json.Unmarshal`: exactly one JSON
value, possibly surrounded by whitespace. -/
def parseJson (cs : Str) : Option Json :=
  match parseValue (cs.length + 1) cs with
  | some (v, rest) => if skipWs rest = [] then some v else none
  | none => none

/-- `json.Unmarshal` into a struct pointer: a top-level `null` leaves the
struct unchanged, a JSON object assigns matching members, anything else is
a type error. -/
def unmarshalObj? (v : Str) : Option (List (Str × Json)) :=
  match parseJson v with
  | some .null => some []
  | some (.obj ms) => some ms
  | _ => none

/-- Struct field matching of `encoding/json` is case-insensitive. -/
def keyMatches (field key : Str) : Bool :=
  key.map Char.toLower == field.map Char.toLower

/-- JSON array whose elements must all be strings. -/
def jsonStrsOf : List Json → Option (List Str)
  | [] => some []
  | .str s :: rest => (jsonStrsOf rest).map (s :: ·)
  | _ => none

/-- A JSON value unmarshalled into a `[]string`: `null` leaves a nil
slice, an all-string array gives its elements, anything else is a type
error. -/
def jsonStrList? : Json → Option (List Str)
  | .null => some []
  | .arr es => jsonStrsOf es
  | _ => none

/-- Walks the members of the payload object in order, assigning every
member whose key matches the `nodes` field (later members overwrite
earlier ones, as in `encoding/json`); a type error aborts. -/
def applyNodesMembers : List (Str × Json) → List Str → Option (List Str)
  | [], acc => some acc
  | (k, v) :: rest, acc =>
    if keyMatches "nodes".toList k then
      match jsonStrList? v with
      | some ns => applyNodesMembers rest ns
      | none => none
    else applyNodesMembers rest acc

/-! ### The configs table and the conf store -/

/-- One row of the `configs` table (Go struct `conf`).  Timestamps are
opaque ticks; the schema length bounds on `name` (128) and `value` (16250)
are enforced by the backing engine, outside this model. -/
structure conf where
  ID : Nat
  Name : Str
  Value : Str
  CreatedAt : Nat
  UpdatedAt : Nat
deriving Repr, DecidableEq

/-- Store state: the rows of `configs` plus the auto-increment counter. -/
structure DB where
  rows : List conf
  nextId : Nat
deriving Repr, DecidableEq

def DB.empty : DB := ⟨[], 1⟩

/-- The error taxonomy the store surfaces (spec §7); storage/connectivity
failures cannot occur in the pure model. -/
inductive ConfError where
  | notFound : ConfError
  | validation : String → ConfError
deriving Repr, DecidableEq

/-- Outcome of a fallible store operation.  `crash` models a Go runtime
panic (unchecked type assertion, out-of-range slice), which is not an
error value. -/
inductive DecodeResult (α : Type) where
  | ok : α → DecodeResult α
  | err : ConfError → DecodeResult α
  | crash : DecodeResult α
deriving Repr, DecidableEq

def DecodeResult.isOk {α : Type} : DecodeResult α → Bool
  | .ok _ => true
  | _ => false

def DecodeResult.isCrash {α : Type} : DecodeResult α → Bool
  | .crash => true
  | _ => false

/-- A Go `interface` value as passed to `StoreConfig confVal`. -/
inductive GoValue where
  | str : Str → GoValue
  | int : Int → GoValue
  | boolean : Bool → GoValue
deriving Repr, DecidableEq

/-- The Go type assertion `confVal.(string)`: `none` means it panics. -/
def GoValue.asString? : GoValue → Option Str
  | .str s => some s
  | _ => none

def MysqlConfKeyReorgVersion : Str := "reorg.version".toList

/-- Source constant RateLimitStrategyConfKeyPrefix. -/
def RateLimitStrategyConfKeyPfx : Str := "ratelimit.strategy.".toList

/-- Source constant AclAllowListConfKeyPrefix. -/
def AclAllowListConfKeyPfx : Str := "acl.allowlist.".toList

/-- Source constant NodeRouteGroupConfKeyPrefix. -/
def NodeRouteGroupConfKeyPfx : Str := "noderoute.group.".toList

/-- `p` is a leading segment of `s` (the SQL pattern `p%`; the reserved
keys contain no other LIKE metacharacters). -/
def hasPfx : Str → Str → Bool
  | [], _ => true
  | _ :: _, [] => false
  | a :: ps, b :: ss => a == b && hasPfx ps ss

/-- First row with the given unique name (`WHERE name = ?` + First). -/
def findByName (db : DB) (n : Str) : Option conf :=
  db.rows.find? (fun c => c.Name == n)

/-- Go map assignment `m[k] = v` on an association-list model of a map. -/
def assocPut {κ α : Type} [BEq κ] (m : List (κ × α)) (k : κ) (v : α) : List (κ × α) :=
  if m.any (fun p => p.1 == k) then m.map (fun p => if p.1 == k then (k, v) else p)
  else m ++ [(k, v)]

/-- LoadConfig: the rows whose name is in the argument list, as a
name-to-value map; missing names are simply absent. -/
def LoadConfig (db : DB) (confNames : List Str) : List (Str × Str) :=
  (db.rows.filter (fun c => confNames.contains c.Name)).foldl
    (fun m c => assocPut m c.Name c.Value) []

/-- The row write StoreConfig issues: INSERT with an ON CONFLICT(name)
DO UPDATE SET value clause.  On conflict the existing row keeps its id,
name and created_at and takes the new value, the backing store refreshing
updated_at (spec §4.2/§3); otherwise a fresh row takes the next
auto-increment id. -/
def upsertByName (db : DB) (now : Nat) (n v : Str) : DB :=
  match findByName db n with
  | some _ =>
    { db with
      rows := db.rows.map (fun c =>
        if c.Name == n then { c with Value := v, UpdatedAt := now } else c) }
  | none =>
    { rows := db.rows ++ [⟨db.nextId, n, v, now, now⟩], nextId := db.nextId + 1 }

/-- StoreConfig.  The value argument is an `interface` subjected to the
unchecked assertion `confVal.(string)` before the write; `none` models the
resulting panic for a non-string value. -/
def StoreConfig (db : DB) (now : Nat) (confName : Str) (confVal : GoValue) : Option DB :=
  (confVal.asString?).map (upsertByName db now confName)

/-- DeleteConfig: DELETE WHERE name = ?, returning RowsAffected > 0. -/
def DeleteConfig (db : DB) (confName : Str) : DB × Bool :=
  ({ db with rows := db.rows.filter (fun c => !(c.Name == confName)) },
   db.rows.any (fun c => c.Name == confName))

/-! ### Reorg version counter -/

/-- GetReorgVersion.  The `baseStore.exists` helper (outside the shown
source slice) is modelled as the obvious first-row existence query it
wraps: 0 when the singleton row is absent, else `strconv.Atoi` of its
value. -/
def GetReorgVersion (db : DB) : Except ConfError Int :=
  match findByName db MysqlConfKeyReorgVersion with
  | none => .ok 0
  | some c =>
    match atoi? c.Value with
    | some n => .ok n
    | none => .error (.validation "strconv.Atoi: invalid syntax")

/-- createOrUpdateReorgVersion ("thread unsafe"): read the current version
and store version + 1 via StoreConfig.  The written value is always a
string, so the StoreConfig type assertion cannot panic here. -/
def createOrUpdateReorgVersion (db : DB) (now : Nat) : Except ConfError DB :=
  match GetReorgVersion db with
  | .error e => .error e
  | .ok version =>
    match StoreConfig db now MysqlConfKeyReorgVersion (.str (itoa (version + 1))) with
    | some db2 => .ok db2
    | none => .error (.validation "unreachable")

/-- M serialized bump calls, as required by the source's concurrency
contract. -/
def createOrUpdateReorgVersionIter (now : Nat) : Nat → DB → Except ConfError DB
  | 0, db => .ok db
  | m + 1, db =>
    match createOrUpdateReorgVersionIter now m db with
    | .ok db2 => createOrUpdateReorgVersion db2 now
    | .error e => .error e

/-! ### Access control configs -/

/-- Modelled from the spec: `acl.AllowList` comes from util/acl, which is
not under src/.  Spec §6 gives its shape as AccessAllowList with id, name
and rule fields; `acl.NewAllowList(id, name)` stamps the identity and
`json.Unmarshal` fills the rule fields from a JSON object payload (kept
here as the raw members). -/
structure AllowList where
  ID : Nat
  Name : Str
  rules : List (Str × Json)

/-- decodeAclAllowLists.  `cfg.Name[len(prefix):]` is an unchecked Go
slice: a name shorter than the prefix panics. -/
def decodeAclAllowLists (cfg : conf) : DecodeResult AllowList :=
  if cfg.Name.length < AclAllowListConfKeyPfx.length then .crash
  else
    let name := cfg.Name.drop AclAllowListConfKeyPfx.length
    if name.length = 0 then .err (.validation "allowlist name is too short")
    else
      match unmarshalObj? cfg.Value with
      | some ms => .ok ⟨cfg.ID, name, ms⟩
      | none => .err (.validation "json unmarshal error")

/-- LoadAclAllowList: single-object load by logical name. -/
def LoadAclAllowList (db : DB) (name : Str) : DecodeResult AllowList :=
  match findByName db (AclAllowListConfKeyPfx ++ name) with
  | none => .err .notFound
  | some cfg => decodeAclAllowLists cfg

/-- LoadAclAllowListById: gorm `First` on a conf whose primary key is set.
The row is fetched purely by id, with no prefix check before the decode.
(With a zero id gorm drops the primary-key condition and returns the first
row; modelled accordingly.) -/
def LoadAclAllowListById (db : DB) (aclID : Nat) : DecodeResult AllowList :=
  match (if aclID = 0 then db.rows.head? else db.rows.find? (fun c => c.ID == aclID)) with
  | none => .err .notFound
  | some cfg => decodeAclAllowLists cfg

/-- The loop body of LoadAclAllowListConfigs: a row that fails decoding is
logged and skipped; a decoded row is entered into both maps, the
fingerprint map taking `md5.Sum([]byte(v.Value))`. -/
def aclConfigsLoop : List conf → List (Nat × AllowList) → List (Nat × Digest) →
    DecodeResult (List (Nat × AllowList) × List (Nat × Digest))
  | [], als, cks => .ok (als, cks)
  | v :: rest, als, cks =>
    match decodeAclAllowLists v with
    | .crash => .crash
    | .err _ => aclConfigsLoop rest als cks
    | .ok al =>
      aclConfigsLoop rest (assocPut als v.ID al)
        (assocPut cks v.ID (md5Sum (utf8Bytes v.Value)))

/-- LoadAclAllowListConfigs: bulk load over `name LIKE
'acl.allowlist.%'`. -/
def LoadAclAllowListConfigs (db : DB) :
    DecodeResult (List (Nat × AllowList) × List (Nat × Digest)) :=
  let cfgs := db.rows.filter (fun c => hasPfx AclAllowListConfKeyPfx c.Name)
  if cfgs.isEmpty then .ok ([], [])
  else aclConfigsLoop cfgs [] []

/-! ### Rate limit configs -/

/-- Modelled from the spec: `rate.Strategy` comes from util/rate, which is
not under src/.  Spec §6: a named policy object; `rate.NewStrategy(id,
name)` stamps the identity and `json.Unmarshal` fills the rule fields from
a JSON object payload. -/
structure Strategy where
  ID : Nat
  Name : Str
  rules : List (Str × Json)

/-- decodeRateLimitStrategy, same shape as the allow-list decoder. -/
def decodeRateLimitStrategy (cfg : conf) : DecodeResult Strategy :=
  if cfg.Name.length < RateLimitStrategyConfKeyPfx.length then .crash
  else
    let name := cfg.Name.drop RateLimitStrategyConfKeyPfx.length
    if name.length = 0 then .err (.validation "strategy name is too short")
    else
      match unmarshalObj? cfg.Value with
      | some ms => .ok ⟨cfg.ID, name, ms⟩
      | none => .err (.validation "json unmarshal error")

/-- LoadRateLimitStrategy: single-object load by logical name. -/
def LoadRateLimitStrategy (db : DB) (name : Str) : DecodeResult Strategy :=
  match findByName db (RateLimitStrategyConfKeyPfx ++ name) with
  | none => .err .notFound
  | some cfg => decodeRateLimitStrategy cfg

/-- The loop body of LoadRateLimitStrategyConfigs. -/
def rateStrategiesLoop : List conf → List (Nat × Strategy) → List (Nat × Digest) →
    DecodeResult (List (Nat × Strategy) × List (Nat × Digest))
  | [], sts, cks => .ok (sts, cks)
  | v :: rest, sts, cks =>
    match decodeRateLimitStrategy v with
    | .crash => .crash
    | .err _ => rateStrategiesLoop rest sts cks
    | .ok st =>
      rateStrategiesLoop rest (assocPut sts v.ID st)
        (assocPut cks v.ID (md5Sum (utf8Bytes v.Value)))

/-- LoadRateLimitStrategyConfigs: bulk load over `name LIKE
'ratelimit.strategy.%'`. -/
def LoadRateLimitStrategyConfigs (db : DB) :
    DecodeResult (List (Nat × Strategy) × List (Nat × Digest)) :=
  let cfgs := db.rows.filter (fun c => hasPfx RateLimitStrategyConfKeyPfx c.Name)
  if cfgs.isEmpty then .ok ([], [])
  else rateStrategiesLoop cfgs [] []

/-! ### Node route configs -/

/-- NodeRouteGroup: `ID` and `Name` are tagged `json:"-"`, `Nodes` is the
`nodes` member. -/
structure NodeRouteGroup where
  ID : Nat
  Name : Str
  Nodes : List Str
deriving Repr, DecidableEq

/-- decodeNodeRouteGroup: strip the prefix (unchecked slice), reject an
empty logical name, then unmarshal the payload into the pre-stamped
group - only the `nodes` member is assigned. -/
def decodeNodeRouteGroup (cfg : conf) : DecodeResult NodeRouteGroup :=
  if cfg.Name.length < NodeRouteGroupConfKeyPfx.length then .crash
  else
    let name := cfg.Name.drop NodeRouteGroupConfKeyPfx.length
    if name.length = 0 then .err (.validation "route group name is too short")
    else
      match parseJson cfg.Value with
      | some .null => .ok ⟨cfg.ID, name, []⟩
      | some (.obj ms) =>
        match applyNodesMembers ms [] with
        | some ns => .ok ⟨cfg.ID, name, ns⟩
        | none => .err (.validation "json unmarshal error")
      | _ => .err (.validation "json unmarshal error")

/-- StoreNodeRouteGroup: marshal the group and upsert it under the
prefixed key via StoreConfig (marshalling a `[]string` member cannot
fail, so the Go error branch is dead). -/
def StoreNodeRouteGroup (db : DB) (now : Nat) (grp : NodeRouteGroup) : Option DB :=
  StoreConfig db now (NodeRouteGroupConfKeyPfx ++ grp.Name)
    (.str (marshalNodeRouteGroup grp.Nodes))

/-- DelNodeRouteGroup: delete under the prefixed key, dropping the
existed flag. -/
def DelNodeRouteGroup (db : DB) (group : Str) : DB :=
  (DeleteConfig db (NodeRouteGroupConfKeyPfx ++ group)).1

/-- The loop body of LoadNodeRouteGroups; the result map is keyed by the
decoded logical group name. -/
def nodeRouteGroupsLoop : List conf → List (Str × NodeRouteGroup) →
    DecodeResult (List (Str × NodeRouteGroup))
  | [], res => .ok res
  | v :: rest, res =>
    match decodeNodeRouteGroup v with
    | .crash => .crash
    | .err _ => nodeRouteGroupsLoop rest res
    | .ok grp => nodeRouteGroupsLoop rest (assocPut res grp.Name grp)

/-- LoadNodeRouteGroups: with no inclusive groups, all rows under `name
LIKE 'noderoute.group.%'`; otherwise the rows whose name is IN the
prefixed group keys. -/
def LoadNodeRouteGroups (db : DB) (inclusiveGroups : List Str) :
    DecodeResult (List (Str × NodeRouteGroup)) :=
  let keys := inclusiveGroups.map (fun g => NodeRouteGroupConfKeyPfx ++ g)
  let cfgs :=
    if keys.isEmpty then db.rows.filter (fun c => hasPfx NodeRouteGroupConfKeyPfx c.Name)
    else db.rows.filter (fun c => keys.contains c.Name)
  if cfgs.isEmpty then .ok []
  else nodeRouteGroupsLoop cfgs []

/-! ### Specification-side descriptions used by the theorems

These restate what the loaders are claimed to return, to be compared with
the loop results above. -/

def aclMatched (db : DB) : List conf :=
  db.rows.filter (fun c => hasPfx AclAllowListConfKeyPfx c.Name)

def rateMatched (db : DB) : List conf :=
  db.rows.filter (fun c => hasPfx RateLimitStrategyConfKeyPfx c.Name)

def nodeMatched (db : DB) : List conf :=
  db.rows.filter (fun c => hasPfx NodeRouteGroupConfKeyPfx c.Name)

def aclDecoded? (c : conf) : Option AllowList :=
  match decodeAclAllowLists c with
  | .ok a => some a
  | _ => none

def rateDecoded? (c : conf) : Option Strategy :=
  match decodeRateLimitStrategy c with
  | .ok s => some s
  | _ => none

def nodeDecoded? (c : conf) : Option NodeRouteGroup :=
  match decodeNodeRouteGroup c with
  | .ok g => some g
  | _ => none

/-- The id-keyed typed objects of the rows that decode. -/
def aclOkPairs (cfgs : List conf) : List (Nat × AllowList) :=
  cfgs.filterMap (fun c => (aclDecoded? c).map (fun a => (c.ID, a)))

/-- The id-keyed fingerprints of the rows that decode: recomputed from the
row value alone, never read from storage. -/
def aclCkPairs (cfgs : List conf) : List (Nat × Digest) :=
  cfgs.filterMap (fun c => (aclDecoded? c).map (fun _ => (c.ID, md5Sum (utf8Bytes c.Value))))

def rateOkPairs (cfgs : List conf) : List (Nat × Strategy) :=
  cfgs.filterMap (fun c => (rateDecoded? c).map (fun s => (c.ID, s)))

def rateCkPairs (cfgs : List conf) : List (Nat × Digest) :=
  cfgs.filterMap (fun c => (rateDecoded? c).map (fun _ => (c.ID, md5Sum (utf8Bytes c.Value))))

/-- The name-keyed groups of the rows that decode. -/
def nodeOkPairs (cfgs : List conf) : List (Str × NodeRouteGroup) :=
  cfgs.filterMap (fun c => (nodeDecoded? c).map (fun g => (g.Name, g)))

/-- The columns a decode and a fingerprint may depend on: id, name,
value - not the timestamps, and nothing stored besides the row. -/
def confKeyFields (c : conf) : Nat × Str × Str := (c.ID, c.Name, c.Value)

/-- The logical name a node-route row decodes to. -/
def nodeLogicalName (c : conf) : Str := c.Name.drop NodeRouteGroupConfKeyPfx.length

/-! ### Concrete fixtures used by the witnesses -/

def exRowAclA : conf := ⟨1, "acl.allowlist.a".toList, "v0".toList, 0, 0⟩

def exDB1 : DB := ⟨[exRowAclA], 2⟩

/-- A well-formed empty-object payload. -/
def exEmptyObj : Str := [lbrace, rbrace]

/-- A payload no JSON parser accepts. -/
def exBadPayload : Str := "not json".toList

def exRowReorgBad : conf := ⟨1, "reorg.version".toList, "abc".toList, 0, 0⟩

def exDBReorgBad : DB := ⟨[exRowReorgBad], 2⟩

/-- A store whose only row is the reorg singleton: its name (13
characters) is shorter than the 14-character allow-list prefix. -/
def exDBReorgOnly : DB := ⟨[⟨7, "reorg.version".toList, "3".toList, 0, 0⟩], 8⟩

/-- A store whose only row belongs to the node-route domain. -/
def exDBNodeOnly : DB := ⟨[⟨9, "noderoute.group.x".toList, exEmptyObj, 0, 0⟩], 10⟩

/-- Two decodable and one undecodable row per domain would be overkill;
one good and one bad row per domain exercise the skip path. -/
def exDBGoodBad : DB :=
  ⟨[⟨1, "acl.allowlist.a".toList, exEmptyObj, 0, 0⟩,
    ⟨2, "acl.allowlist.b".toList, exBadPayload, 0, 0⟩,
    ⟨3, "ratelimit.strategy.s".toList, exEmptyObj, 0, 0⟩,
    ⟨4, "ratelimit.strategy.t".toList, exBadPayload, 0, 0⟩,
    ⟨5, "noderoute.group.g".toList, exEmptyObj, 0, 0⟩,
    ⟨6, "noderoute.group.h".toList, exBadPayload, 0, 0⟩], 7⟩

/-- Same configuration rows as `exDBCkB` up to timestamps. -/
def exDBCkA : DB :=
  ⟨[⟨1, "acl.allowlist.a".toList, exEmptyObj, 0, 0⟩,
    ⟨3, "ratelimit.strategy.s".toList, exEmptyObj, 0, 0⟩], 4⟩

/-- Same configuration rows as `exDBCkA`, later timestamps. -/
def exDBCkB : DB :=
  ⟨[⟨1, "acl.allowlist.a".toList, exEmptyObj, 9, 9⟩,
    ⟨3, "ratelimit.strategy.s".toList, exEmptyObj, 9, 9⟩], 4⟩


/-! ## Lemmas: strconv round trip -/

theorem digitVal?_digitChar (d : Nat) (h : d < 10) :
    digitVal? (Nat.digitChar d) = some d := by
  interval_cases d <;> decide

theorem digitChar_ne_minus (d : Nat) (h : d < 10) : Nat.digitChar d ≠ '-' := by
  interval_cases d <;> decide

theorem digitChar_ne_plus (d : Nat) (h : d < 10) : Nat.digitChar d ≠ '+' := by
  interval_cases d <;> decide

theorem digitsOf_map_digitChar (ds : List Nat) (h : ∀ d ∈ ds, d < 10) :
    digitsOf (ds.map Nat.digitChar) = some ds := by
  induction ds with
  | nil => rfl
  | cons d rest ih =>
    have hd : d < 10 := h d (List.mem_cons_self d rest)
    have hrest := ih (fun x hx => h x (List.mem_cons_of_mem d hx))
    simp [digitsOf, digitVal?_digitChar d hd, hrest]

theorem atoi_itoa (n : Nat) : atoi? (itoa (n : Int)) = some (n : Int) := by
  have hnonneg : ¬((n : Int) < 0) := by omega
  unfold itoa
  rw [if_neg hnonneg, Int.natAbs_ofNat]
  unfold natToDec
  by_cases h0 : n = 0
  · subst h0; decide
  · rw [if_neg h0]
    have hne : Nat.digits 10 n ≠ [] := Nat.digits_ne_nil_iff_ne_zero.mpr h0
    obtain ⟨d, ds, hds⟩ : ∃ d ds, (Nat.digits 10 n).reverse = d :: ds := by
      cases hrev : (Nat.digits 10 n).reverse with
      | nil =>
        exact absurd (by simpa using congrArg List.reverse hrev) hne
      | cons d ds => exact ⟨d, ds, rfl⟩
    have hmem : ∀ x ∈ d :: ds, x < 10 := by
      intro x hx
      have hx2 : x ∈ (Nat.digits 10 n).reverse := hds ▸ hx
      exact Nat.digits_lt_base (by omega) (List.mem_reverse.mp hx2)
    have hd10 : d < 10 := hmem d (List.mem_cons_self d ds)
    rw [hds]
    simp only [List.map_cons, atoi?]
    rw [if_neg (digitChar_ne_minus d hd10), if_neg (digitChar_ne_plus d hd10)]
    have hdig : digitsOf (Nat.digitChar d :: ds.map Nat.digitChar) = some (d :: ds) := by
      have := digitsOf_map_digitChar (d :: ds) hmem
      simpa using this
    have : atoiDigits? (Nat.digitChar d :: ds.map Nat.digitChar) = some n := by
      unfold atoiDigits?
      rw [hdig]
      show some (Nat.ofDigits 10 (d :: ds).reverse) = some n
      have hrev2 : (d :: ds).reverse = Nat.digits 10 n := by
        rw [← hds, List.reverse_reverse]
      rw [hrev2, Nat.ofDigits_digits]
    rw [this]
    rfl

/-! ## Lemmas: the reorg counter -/

theorem reorg_state_after_bumps (now M : Nat) :
    createOrUpdateReorgVersionIter now (M + 1) DB.empty =
      .ok ⟨[⟨1, MysqlConfKeyReorgVersion, itoa ((M : Int) + 1), now, now⟩], 2⟩ := by
  induction M with
  | zero =>
    show createOrUpdateReorgVersionIter now 1 DB.empty = _
    simp [createOrUpdateReorgVersionIter, createOrUpdateReorgVersion, GetReorgVersion,
      findByName, DB.empty, StoreConfig, GoValue.asString?, upsertByName]
  | succ m ih =>
    show createOrUpdateReorgVersionIter now (m + 1 + 1) DB.empty = _
    rw [createOrUpdateReorgVersionIter, ih]
    have hcast : ((m : Int) + 1) = (((m + 1 : Nat)) : Int) := by push_cast; ring
    simp only [createOrUpdateReorgVersion, GetReorgVersion, findByName, List.find?,
      beq_self_eq_true, hcast, atoi_itoa (m + 1)]
    simp [StoreConfig, GoValue.asString?, upsertByName, findByName, List.find?]

/-- C1: GetReorgVersion on a store with no reorg.version row returns 0,
and M serialized createOrUpdateReorgVersion calls starting from the empty
store leave a store on which GetReorgVersion returns M, each bump reading
the current version and upserting version + 1. -/
theorem reorg_counter_counts_serialized_bumps (now M : Nat) :
    GetReorgVersion DB.empty = .ok 0 ∧
    ∃ db, createOrUpdateReorgVersionIter now M DB.empty = .ok db ∧
      GetReorgVersion db = .ok (M : Int) := by
  refine ⟨rfl, ?_⟩
  cases M with
  | zero => exact ⟨DB.empty, rfl, rfl⟩
  | succ m =>
    refine ⟨_, reorg_state_after_bumps now m, ?_⟩
    have hcast : ((m : Int) + 1) = (((m + 1 : Nat)) : Int) := by push_cast; ring
    simp only [GetReorgVersion, findByName, List.find?, beq_self_eq_true, hcast,
      atoi_itoa (m + 1)]

/-! ## Lemmas: upsert on an existing name -/

theorem find?_map_update (rows : List conf) (n v : Str) (now : Nat) (c : conf)
    (h : rows.find? (fun r => r.Name == n) = some c) :
    (rows.map (fun r => if r.Name == n then { r with Value := v, UpdatedAt := now } else r)).find?
      (fun r => r.Name == n) = some { c with Value := v, UpdatedAt := now } := by
  induction rows with
  | nil => simp at h
  | cons r rest ih =>
    by_cases hr : (r.Name == n) = true
    · simp only [List.find?, hr] at h
      injection h with h
      subst h
      simp [List.find?, hr]
    · rw [Bool.not_eq_true] at hr
      simp only [List.find?, hr] at h
      simpa [List.find?, hr] using ih h

/-- C2: StoreConfig on a name that already has a row takes the update
branch of the conflict clause: the row keeps its id, name and created_at,
takes the new value and updated_at, no second row appears, the
auto-increment counter does not move, and every other row is untouched. -/
theorem storeConfig_existing_name_frame (db : DB) (now : Nat) (n v : Str) (c : conf)
    (h : findByName db n = some c) :
    ∃ db2, StoreConfig db now n (.str v) = some db2 ∧
      db2.nextId = db.nextId ∧
      db2.rows.length = db.rows.length ∧
      (∃ c2, findByName db2 n = some c2 ∧ c2.ID = c.ID ∧ c2.Name = c.Name ∧
        c2.CreatedAt = c.CreatedAt ∧ c2.Value = v ∧ c2.UpdatedAt = now) ∧
      ∀ r ∈ db.rows, (r.Name == n) = false → r ∈ db2.rows := by
  have hup : upsertByName db now n v =
      { db with rows := db.rows.map (fun r =>
          if r.Name == n then { r with Value := v, UpdatedAt := now } else r) } := by
    unfold upsertByName
    rw [h]
  refine ⟨upsertByName db now n v, rfl, ?_, ?_, ?_, ?_⟩
  · rw [hup]
  · rw [hup]; simp
  · rw [hup]
    exact ⟨_, find?_map_update db.rows n v now c h, rfl, rfl, rfl, rfl, rfl⟩
  · intro r hr hneg
    rw [hup]
    exact List.mem_map.mpr ⟨r, hr, by simp [hneg]⟩

/-- C4: a record whose name is exactly the domain's reserved prefix (so
the logical name after the strip is empty) is rejected by each of the
three decoders with the domain's ValidationError, whatever its value. -/
theorem decode_prefix_only_name_fails (id : Nat) (v : Str) (cr up : Nat) :
    decodeAclAllowLists ⟨id, AclAllowListConfKeyPfx, v, cr, up⟩ =
      .err (.validation "allowlist name is too short") ∧
    decodeRateLimitStrategy ⟨id, RateLimitStrategyConfKeyPfx, v, cr, up⟩ =
      .err (.validation "strategy name is too short") ∧
    decodeNodeRouteGroup ⟨id, NodeRouteGroupConfKeyPfx, v, cr, up⟩ =
      .err (.validation "route group name is too short") := by
  refine ⟨?_, ?_, ?_⟩ <;>
    simp [decodeAclAllowLists, decodeRateLimitStrategy, decodeNodeRouteGroup, List.drop_length]

/-- C7: when the reorg singleton row exists but its value is not a decimal
integer string, GetReorgVersion surfaces the Atoi failure as an error and
returns no version. -/
theorem getReorgVersion_nonnumeric_fails (db : DB) (c : conf)
    (hfind : findByName db MysqlConfKeyReorgVersion = some c)
    (hbad : atoi? c.Value = none) :
    GetReorgVersion db = .error (.validation "strconv.Atoi: invalid syntax") := by
  simp only [GetReorgVersion, hfind, hbad]

/-- Witness for C7: a store whose reorg row holds "abc". -/
theorem getReorgVersion_nonnumeric_fails_witness :
    findByName exDBReorgBad MysqlConfKeyReorgVersion = some exRowReorgBad ∧
    atoi? exRowReorgBad.Value = none ∧
    GetReorgVersion exDBReorgBad = .error (.validation "strconv.Atoi: invalid syntax") :=
  ⟨by decide, by decide,
    getReorgVersion_nonnumeric_fails exDBReorgBad exRowReorgBad (by decide) (by decide)⟩

/-- C8: DeleteConfig reports whether a row was actually removed: an absent
name leaves the store untouched and returns existed = false with no error;
a present name returns existed = true, removes every trace of the name,
shrinks the table, and touches no other row. -/
theorem deleteConfig_existed_flag (db : DB) (n : Str) :
    (findByName db n = none → DeleteConfig db n = (db, false)) ∧
    (∀ c, findByName db n = some c →
      (DeleteConfig db n).2 = true ∧
      findByName (DeleteConfig db n).1 n = none ∧
      (DeleteConfig db n).1.rows.length < db.rows.length ∧
      ∀ r ∈ db.rows, (r.Name == n) = false → r ∈ (DeleteConfig db n).1.rows) := by
  constructor
  · intro hnone
    have hall : ∀ r ∈ db.rows, ¬((r.Name == n) = true) := by
      intro r hr
      exact List.find?_eq_none.mp hnone r hr
    have hfilter : db.rows.filter (fun c => !(c.Name == n)) = db.rows := by
      apply List.filter_eq_self.mpr
      intro r hr
      have h1 := hall r hr
      simp only [beq_iff_eq] at h1
      simp [h1]
    have hany : db.rows.any (fun c => c.Name == n) = false := by
      rw [Bool.eq_false_iff]
      intro habs
      obtain ⟨r, hr, hpr⟩ := List.any_eq_true.mp habs
      exact hall r hr hpr
    obtain ⟨rows, nid⟩ := db
    simp only [DeleteConfig] at *
    rw [hfilter, hany]
  · intro c hsome
    have hsome2 : db.rows.find? (fun r => r.Name == n) = some c := hsome
    have hmem : c ∈ db.rows := List.mem_of_find?_eq_some hsome2
    have hpc : (c.Name == n) = true := by
      have := List.find?_some hsome2
      simpa using this
    refine ⟨?_, ?_, ?_, ?_⟩
    · simp only [DeleteConfig]
      exact List.any_eq_true.mpr ⟨c, hmem, hpc⟩
    · simp only [DeleteConfig, findByName]
      apply List.find?_eq_none.mpr
      intro r hr
      have := (List.mem_filter.mp hr).2
      simp only [Bool.not_eq_true'] at this
      simp [this]
    · simp only [DeleteConfig]
      apply List.length_filter_lt_length_iff_exists.mpr
      exact ⟨c, hmem, by simp [hpc]⟩
    · intro r hr hneg
      simp only [DeleteConfig]
      exact List.mem_filter.mpr ⟨hr, by simp [hneg]⟩

/-- Witness for C8: deleting an absent then a present name. -/
theorem deleteConfig_existed_flag_witness :
    DeleteConfig exDB1 "missing".toList = (exDB1, false) ∧
    (DeleteConfig exDB1 "acl.allowlist.a".toList).2 = true ∧
    findByName (DeleteConfig exDB1 "acl.allowlist.a".toList).1 "acl.allowlist.a".toList = none :=
  ⟨(deleteConfig_existed_flag exDB1 "missing".toList).1 (by decide),
   ((deleteConfig_existed_flag exDB1 "acl.allowlist.a".toList).2 exRowAclA (by decide)).1,
   ((deleteConfig_existed_flag exDB1 "acl.allowlist.a".toList).2 exRowAclA (by decide)).2.1⟩

/-- C9: StoreConfig is total only for string-typed values: the unchecked
type assertion makes it panic (return no store at all, rather than any
error value) exactly when the value is not a string, while a string value
always performs the upsert. -/
theorem storeConfig_nonstring_panics (db : DB) (now : Nat) (n : Str) (v : GoValue) (s : Str) :
    (StoreConfig db now n v = none ↔ v.asString? = none) ∧
    StoreConfig db now n (.str s) = some (upsertByName db now n s) := by
  constructor
  · cases v <;> simp [StoreConfig, GoValue.asString?]
  · rfl

/-- C10: LoadAclAllowListById fetches purely by id and decodes with an
unchecked prefix strip: on a row of another domain it panics (name shorter
than the prefix) or stamps a wrong logical name (name of a longer foreign
prefix), instead of failing with a ValidationError. -/
theorem loadAclAllowListById_ignores_domain :
    LoadAclAllowListById exDBReorgOnly 7 = .crash ∧
    (∃ al, LoadAclAllowListById exDBNodeOnly 9 = .ok al ∧ al.Name = "p.x".toList) := by
  exact ⟨rfl, ⟨9, "p.x".toList, []⟩, rfl, rfl⟩

/-- Witness for C2 at a concrete store. -/
theorem storeConfig_existing_name_frame_witness :
    findByName exDB1 "acl.allowlist.a".toList = some exRowAclA ∧
    (∃ db2, StoreConfig exDB1 5 "acl.allowlist.a".toList (.str "v1".toList) = some db2 ∧
      db2.nextId = exDB1.nextId ∧
      db2.rows.length = exDB1.rows.length ∧
      (∃ c2, findByName db2 "acl.allowlist.a".toList = some c2 ∧ c2.ID = exRowAclA.ID ∧
        c2.Name = exRowAclA.Name ∧ c2.CreatedAt = exRowAclA.CreatedAt ∧
        c2.Value = "v1".toList ∧ c2.UpdatedAt = 5) ∧
      ∀ r ∈ exDB1.rows, (r.Name == "acl.allowlist.a".toList) = false → r ∈ db2.rows) :=
  ⟨by decide, storeConfig_existing_name_frame exDB1 5 _ _ exRowAclA (by decide)⟩

/-! ## Lemmas: prefixes, maps, bulk-load loops -/

theorem hasPfx_le_length (p s : Str) (h : hasPfx p s = true) : p.length ≤ s.length := by
  induction p generalizing s with
  | nil => simp
  | cons a ps ih =>
    cases s with
    | nil => simp [hasPfx] at h
    | cons b ss =>
      simp only [hasPfx, Bool.and_eq_true] at h
      simpa using ih ss h.2

theorem hasPfx_append_drop (p s : Str) (h : hasPfx p s = true) :
    p ++ s.drop p.length = s := by
  induction p generalizing s with
  | nil => simp
  | cons a ps ih =>
    cases s with
    | nil => simp [hasPfx] at h
    | cons b ss =>
      simp only [hasPfx, Bool.and_eq_true, beq_iff_eq] at h
      obtain ⟨rfl, h2⟩ := h
      simpa using ih ss h2

theorem assocPut_of_fresh {κ α : Type} [BEq κ] (m : List (κ × α)) (k : κ) (v : α)
    (h : ∀ p ∈ m, (p.1 == k) = false) : assocPut m k v = m ++ [(k, v)] := by
  unfold assocPut
  have hany : m.any (fun p => p.1 == k) = false := by
    rw [List.any_eq_false]
    intro p hp
    simp [h p hp]
  simp [hany]

theorem length_filterMap_eq_countP {α β : Type} (f : α → Option β) (l : List α) :
    (l.filterMap f).length = l.countP (fun a => (f a).isSome) := by
  induction l with
  | nil => rfl
  | cons a rest ih =>
    cases hf : f a <;> simp [List.filterMap_cons, hf, List.countP_cons, ih]

theorem decodeAcl_congr (c c2 : conf) (h : confKeyFields c = confKeyFields c2) :
    decodeAclAllowLists c = decodeAclAllowLists c2 := by
  obtain ⟨i, n, v, cr, up⟩ := c
  obtain ⟨i2, n2, v2, cr2, up2⟩ := c2
  simp only [confKeyFields, Prod.mk.injEq] at h
  obtain ⟨rfl, rfl, rfl⟩ := h
  rfl

theorem decodeRate_congr (c c2 : conf) (h : confKeyFields c = confKeyFields c2) :
    decodeRateLimitStrategy c = decodeRateLimitStrategy c2 := by
  obtain ⟨i, n, v, cr, up⟩ := c
  obtain ⟨i2, n2, v2, cr2, up2⟩ := c2
  simp only [confKeyFields, Prod.mk.injEq] at h
  obtain ⟨rfl, rfl, rfl⟩ := h
  rfl

theorem decodeAcl_ne_crash (c : conf) (h : hasPfx AclAllowListConfKeyPfx c.Name = true) :
    decodeAclAllowLists c ≠ .crash := by
  have hlen := hasPfx_le_length _ _ h
  unfold decodeAclAllowLists
  rw [if_neg (by omega)]
  by_cases h0 : (c.Name.drop AclAllowListConfKeyPfx.length).length = 0
  · simp [h0]
  · simp only [if_neg h0]
    cases unmarshalObj? c.Value <;> simp

theorem decodeRate_ne_crash (c : conf) (h : hasPfx RateLimitStrategyConfKeyPfx c.Name = true) :
    decodeRateLimitStrategy c ≠ .crash := by
  have hlen := hasPfx_le_length _ _ h
  unfold decodeRateLimitStrategy
  rw [if_neg (by omega)]
  by_cases h0 : (c.Name.drop RateLimitStrategyConfKeyPfx.length).length = 0
  · simp [h0]
  · simp only [if_neg h0]
    cases unmarshalObj? c.Value <;> simp

theorem decodeNode_ne_crash (c : conf) (h : hasPfx NodeRouteGroupConfKeyPfx c.Name = true) :
    decodeNodeRouteGroup c ≠ .crash := by
  have hlen := hasPfx_le_length _ _ h
  unfold decodeNodeRouteGroup
  rw [if_neg (by omega)]
  by_cases h0 : (c.Name.drop NodeRouteGroupConfKeyPfx.length).length = 0
  · simp [h0]
  · simp only [if_neg h0]
    cases hj : parseJson c.Value with
    | none => simp
    | some j =>
      cases j with
      | null => simp
      | bool b => simp
      | num r => simp
      | str s => simp
      | arr es => simp
      | obj ms => cases hn : applyNodesMembers ms [] <;> simp [hn]

theorem decodeNode_ok_name (c : conf) (g : NodeRouteGroup)
    (h : decodeNodeRouteGroup c = .ok g) : g.Name = nodeLogicalName c := by
  unfold decodeNodeRouteGroup at h
  by_cases hlen : c.Name.length < NodeRouteGroupConfKeyPfx.length
  · rw [if_pos hlen] at h
    exact absurd h (by simp)
  · rw [if_neg hlen] at h
    by_cases h0 : (c.Name.drop NodeRouteGroupConfKeyPfx.length).length = 0
    · rw [if_pos h0] at h
      exact absurd h (by simp)
    · rw [if_neg h0] at h
      cases hj : parseJson c.Value with
      | none => rw [hj] at h; exact absurd h (by simp)
      | some j =>
        rw [hj] at h
        cases j with
        | null =>
          have h2 : DecodeResult.ok
              (⟨c.ID, c.Name.drop NodeRouteGroupConfKeyPfx.length, []⟩ : NodeRouteGroup) =
              DecodeResult.ok g := h
          injection h2 with h2
          rw [← h2]
          rfl
        | obj ms =>
          have h2 : (match applyNodesMembers ms [] with
              | some ns => DecodeResult.ok
                  (⟨c.ID, c.Name.drop NodeRouteGroupConfKeyPfx.length, ns⟩ : NodeRouteGroup)
              | none => DecodeResult.err (.validation "json unmarshal error")) =
              DecodeResult.ok g := h
          cases hn : applyNodesMembers ms [] with
          | none => rw [hn] at h2; exact absurd h2 (by simp)
          | some ns =>
            rw [hn] at h2
            injection h2 with h2
            rw [← h2]
            rfl
        | bool b => exact absurd h (by simp)
        | num r => exact absurd h (by simp)
        | str s => exact absurd h (by simp)
        | arr es => exact absurd h (by simp)

theorem aclConfigsLoop_spec (cfgs : List conf) (als : List (Nat × AllowList))
    (cks : List (Nat × Digest))
    (hpfx : ∀ c ∈ cfgs, hasPfx AclAllowListConfKeyPfx c.Name = true)
    (hnodup : (cfgs.map conf.ID).Nodup)
    (hfresh1 : ∀ c ∈ cfgs, ∀ p ∈ als, (p.1 == c.ID) = false)
    (hfresh2 : ∀ c ∈ cfgs, ∀ p ∈ cks, (p.1 == c.ID) = false) :
    aclConfigsLoop cfgs als cks = .ok (als ++ aclOkPairs cfgs, cks ++ aclCkPairs cfgs) := by
  induction cfgs generalizing als cks with
  | nil => simp [aclConfigsLoop, aclOkPairs, aclCkPairs]
  | cons v rest ih =>
    have hv := hpfx v (List.mem_cons_self v rest)
    have hpfx2 : ∀ c ∈ rest, hasPfx AclAllowListConfKeyPfx c.Name = true :=
      fun c hc => hpfx c (List.mem_cons_of_mem v hc)
    have hnodup2 : (rest.map conf.ID).Nodup := (List.nodup_cons.mp (by simpa using hnodup)).2
    have hvid : v.ID ∉ rest.map conf.ID := (List.nodup_cons.mp (by simpa using hnodup)).1
    cases hdec : decodeAclAllowLists v with
    | crash => exact absurd hdec (decodeAcl_ne_crash v hv)
    | err e =>
      have hdn : aclDecoded? v = none := by simp [aclDecoded?, hdec]
      simp only [aclConfigsLoop, hdec]
      rw [ih als cks hpfx2 hnodup2 (fun c hc => hfresh1 c (List.mem_cons_of_mem v hc))
        (fun c hc => hfresh2 c (List.mem_cons_of_mem v hc))]
      simp [aclOkPairs, aclCkPairs, List.filterMap_cons, hdn]
    | ok a =>
      have hds : aclDecoded? v = some a := by simp [aclDecoded?, hdec]
      have hf1 : ∀ c ∈ rest, ∀ p ∈ als ++ [(v.ID, a)], (p.1 == c.ID) = false := by
        intro c hc p hp
        rcases List.mem_append.mp hp with hp1 | hp2
        · exact hfresh1 c (List.mem_cons_of_mem v hc) p hp1
        · have hpv : p = (v.ID, a) := by simpa using hp2
          subst hpv
          simp only [beq_eq_false_iff_ne, ne_eq]
          intro hcontra
          exact hvid (hcontra ▸ List.mem_map_of_mem conf.ID hc)
      have hf2 : ∀ c ∈ rest, ∀ p ∈ cks ++ [(v.ID, md5Sum (utf8Bytes v.Value))],
          (p.1 == c.ID) = false := by
        intro c hc p hp
        rcases List.mem_append.mp hp with hp1 | hp2
        · exact hfresh2 c (List.mem_cons_of_mem v hc) p hp1
        · have hpv : p = (v.ID, md5Sum (utf8Bytes v.Value)) := by simpa using hp2
          subst hpv
          simp only [beq_eq_false_iff_ne, ne_eq]
          intro hcontra
          exact hvid (hcontra ▸ List.mem_map_of_mem conf.ID hc)
      simp only [aclConfigsLoop, hdec]
      rw [assocPut_of_fresh als v.ID a (fun p hp => hfresh1 v (List.mem_cons_self v rest) p hp),
        assocPut_of_fresh cks v.ID _ (fun p hp => hfresh2 v (List.mem_cons_self v rest) p hp),
        ih (als ++ [(v.ID, a)]) (cks ++ [(v.ID, md5Sum (utf8Bytes v.Value))]) hpfx2 hnodup2 hf1 hf2]
      simp [aclOkPairs, aclCkPairs, List.filterMap_cons, hds]

theorem rateStrategiesLoop_spec (cfgs : List conf) (sts : List (Nat × Strategy))
    (cks : List (Nat × Digest))
    (hpfx : ∀ c ∈ cfgs, hasPfx RateLimitStrategyConfKeyPfx c.Name = true)
    (hnodup : (cfgs.map conf.ID).Nodup)
    (hfresh1 : ∀ c ∈ cfgs, ∀ p ∈ sts, (p.1 == c.ID) = false)
    (hfresh2 : ∀ c ∈ cfgs, ∀ p ∈ cks, (p.1 == c.ID) = false) :
    rateStrategiesLoop cfgs sts cks = .ok (sts ++ rateOkPairs cfgs, cks ++ rateCkPairs cfgs) := by
  induction cfgs generalizing sts cks with
  | nil => simp [rateStrategiesLoop, rateOkPairs, rateCkPairs]
  | cons v rest ih =>
    have hv := hpfx v (List.mem_cons_self v rest)
    have hpfx2 : ∀ c ∈ rest, hasPfx RateLimitStrategyConfKeyPfx c.Name = true :=
      fun c hc => hpfx c (List.mem_cons_of_mem v hc)
    have hnodup2 : (rest.map conf.ID).Nodup := (List.nodup_cons.mp (by simpa using hnodup)).2
    have hvid : v.ID ∉ rest.map conf.ID := (List.nodup_cons.mp (by simpa using hnodup)).1
    cases hdec : decodeRateLimitStrategy v with
    | crash => exact absurd hdec (decodeRate_ne_crash v hv)
    | err e =>
      have hdn : rateDecoded? v = none := by simp [rateDecoded?, hdec]
      simp only [rateStrategiesLoop, hdec]
      rw [ih sts cks hpfx2 hnodup2 (fun c hc => hfresh1 c (List.mem_cons_of_mem v hc))
        (fun c hc => hfresh2 c (List.mem_cons_of_mem v hc))]
      simp [rateOkPairs, rateCkPairs, List.filterMap_cons, hdn]
    | ok a =>
      have hds : rateDecoded? v = some a := by simp [rateDecoded?, hdec]
      have hf1 : ∀ c ∈ rest, ∀ p ∈ sts ++ [(v.ID, a)], (p.1 == c.ID) = false := by
        intro c hc p hp
        rcases List.mem_append.mp hp with hp1 | hp2
        · exact hfresh1 c (List.mem_cons_of_mem v hc) p hp1
        · have hpv : p = (v.ID, a) := by simpa using hp2
          subst hpv
          simp only [beq_eq_false_iff_ne, ne_eq]
          intro hcontra
          exact hvid (hcontra ▸ List.mem_map_of_mem conf.ID hc)
      have hf2 : ∀ c ∈ rest, ∀ p ∈ cks ++ [(v.ID, md5Sum (utf8Bytes v.Value))],
          (p.1 == c.ID) = false := by
        intro c hc p hp
        rcases List.mem_append.mp hp with hp1 | hp2
        · exact hfresh2 c (List.mem_cons_of_mem v hc) p hp1
        · have hpv : p = (v.ID, md5Sum (utf8Bytes v.Value)) := by simpa using hp2
          subst hpv
          simp only [beq_eq_false_iff_ne, ne_eq]
          intro hcontra
          exact hvid (hcontra ▸ List.mem_map_of_mem conf.ID hc)
      simp only [rateStrategiesLoop, hdec]
      rw [assocPut_of_fresh sts v.ID a (fun p hp => hfresh1 v (List.mem_cons_self v rest) p hp),
        assocPut_of_fresh cks v.ID _ (fun p hp => hfresh2 v (List.mem_cons_self v rest) p hp),
        ih (sts ++ [(v.ID, a)]) (cks ++ [(v.ID, md5Sum (utf8Bytes v.Value))]) hpfx2 hnodup2 hf1 hf2]
      simp [rateOkPairs, rateCkPairs, List.filterMap_cons, hds]

theorem nodeRouteGroupsLoop_spec (cfgs : List conf) (res : List (Str × NodeRouteGroup))
    (hpfx : ∀ c ∈ cfgs, hasPfx NodeRouteGroupConfKeyPfx c.Name = true)
    (hnodup : (cfgs.map nodeLogicalName).Nodup)
    (hfresh : ∀ c ∈ cfgs, ∀ p ∈ res, (p.1 == nodeLogicalName c) = false) :
    nodeRouteGroupsLoop cfgs res = .ok (res ++ nodeOkPairs cfgs) := by
  induction cfgs generalizing res with
  | nil => simp [nodeRouteGroupsLoop, nodeOkPairs]
  | cons v rest ih =>
    have hv := hpfx v (List.mem_cons_self v rest)
    have hpfx2 : ∀ c ∈ rest, hasPfx NodeRouteGroupConfKeyPfx c.Name = true :=
      fun c hc => hpfx c (List.mem_cons_of_mem v hc)
    have hnodup2 : (rest.map nodeLogicalName).Nodup :=
      (List.nodup_cons.mp (by simpa using hnodup)).2
    have hvnm : nodeLogicalName v ∉ rest.map nodeLogicalName :=
      (List.nodup_cons.mp (by simpa using hnodup)).1
    cases hdec : decodeNodeRouteGroup v with
    | crash => exact absurd hdec (decodeNode_ne_crash v hv)
    | err e =>
      have hdn : nodeDecoded? v = none := by simp [nodeDecoded?, hdec]
      simp only [nodeRouteGroupsLoop, hdec]
      rw [ih res hpfx2 hnodup2 (fun c hc => hfresh c (List.mem_cons_of_mem v hc))]
      simp [nodeOkPairs, List.filterMap_cons, hdn]
    | ok g =>
      have hds : nodeDecoded? v = some g := by simp [nodeDecoded?, hdec]
      have hgname : g.Name = nodeLogicalName v := decodeNode_ok_name v g hdec
      have hf : ∀ c ∈ rest, ∀ p ∈ res ++ [(g.Name, g)], (p.1 == nodeLogicalName c) = false := by
        intro c hc p hp
        rcases List.mem_append.mp hp with hp1 | hp2
        · exact hfresh c (List.mem_cons_of_mem v hc) p hp1
        · have hpv : p = (g.Name, g) := by simpa using hp2
          subst hpv
          simp only [hgname, beq_eq_false_iff_ne, ne_eq]
          intro hcontra
          exact hvnm (hcontra ▸ List.mem_map_of_mem nodeLogicalName hc)
      simp only [nodeRouteGroupsLoop, hdec]
      rw [assocPut_of_fresh res g.Name g
          (fun p hp => hgname ▸ hfresh v (List.mem_cons_self v rest) p hp),
        ih (res ++ [(g.Name, g)]) hpfx2 hnodup2 hf]
      simp [nodeOkPairs, List.filterMap_cons, hds]

theorem loadAclConfigs_spec (db : DB) (h : ((aclMatched db).map conf.ID).Nodup) :
    LoadAclAllowListConfigs db = .ok (aclOkPairs (aclMatched db), aclCkPairs (aclMatched db)) := by
  simp only [LoadAclAllowListConfigs]
  by_cases he : (db.rows.filter (fun c => hasPfx AclAllowListConfKeyPfx c.Name)).isEmpty
  · rw [if_pos he]
    have he2 : aclMatched db = [] := by
      rw [← List.isEmpty_iff]
      exact he
    rw [he2]
    simp [aclOkPairs, aclCkPairs]
  · rw [if_neg he]
    exact aclConfigsLoop_spec (aclMatched db) [] []
      (fun c hc => (List.mem_filter.mp hc).2) h (by simp) (by simp)

theorem loadRateConfigs_spec (db : DB) (h : ((rateMatched db).map conf.ID).Nodup) :
    LoadRateLimitStrategyConfigs db =
      .ok (rateOkPairs (rateMatched db), rateCkPairs (rateMatched db)) := by
  simp only [LoadRateLimitStrategyConfigs]
  by_cases he : (db.rows.filter (fun c => hasPfx RateLimitStrategyConfKeyPfx c.Name)).isEmpty
  · rw [if_pos he]
    have he2 : rateMatched db = [] := by
      rw [← List.isEmpty_iff]
      exact he
    rw [he2]
    simp [rateOkPairs, rateCkPairs]
  · rw [if_neg he]
    exact rateStrategiesLoop_spec (rateMatched db) [] []
      (fun c hc => (List.mem_filter.mp hc).2) h (by simp) (by simp)

theorem loadNodeGroups_spec (db : DB) (h : ((nodeMatched db).map nodeLogicalName).Nodup) :
    LoadNodeRouteGroups db [] = .ok (nodeOkPairs (nodeMatched db)) := by
  simp only [LoadNodeRouteGroups, List.map_nil, List.isEmpty_nil, if_true]
  by_cases he : (db.rows.filter (fun c => hasPfx NodeRouteGroupConfKeyPfx c.Name)).isEmpty
  · rw [if_pos he]
    have he2 : nodeMatched db = [] := by
      rw [← List.isEmpty_iff]
      exact he
    rw [he2]
    simp [nodeOkPairs]
  · rw [if_neg he]
    exact nodeRouteGroupsLoop_spec (nodeMatched db) []
      (fun c hc => (List.mem_filter.mp hc).2) h (by simp)

theorem nodeLogical_nodup_of_name_nodup (db : DB)
    (h : ((nodeMatched db).map conf.Name).Nodup) :
    ((nodeMatched db).map nodeLogicalName).Nodup := by
  have hmm : (nodeMatched db).map nodeLogicalName =
      ((nodeMatched db).map conf.Name).map
        (fun s => s.drop NodeRouteGroupConfKeyPfx.length) := by
    rw [List.map_map]
    rfl
  rw [hmm]
  refine List.Nodup.map_on ?_ h
  intro s1 hs1 s2 hs2 heq
  have hp1 : hasPfx NodeRouteGroupConfKeyPfx s1 = true := by
    obtain ⟨c, hc, rfl⟩ := List.mem_map.mp hs1
    exact (List.mem_filter.mp hc).2
  have hp2 : hasPfx NodeRouteGroupConfKeyPfx s2 = true := by
    obtain ⟨c, hc, rfl⟩ := List.mem_map.mp hs2
    exact (List.mem_filter.mp hc).2
  calc s1 = NodeRouteGroupConfKeyPfx ++ s1.drop NodeRouteGroupConfKeyPfx.length :=
        (hasPfx_append_drop _ _ hp1).symm
    _ = NodeRouteGroupConfKeyPfx ++ s2.drop NodeRouteGroupConfKeyPfx.length := by rw [heq]
    _ = s2 := hasPfx_append_drop _ _ hp2

theorem countP_map_isSome {α β γ : Type} (f : α → Option β) (g : α → β → γ) (l : List α) :
    l.countP (fun a => ((f a).map (g a)).isSome) = l.countP (fun a => (f a).isSome) := by
  induction l with
  | nil => rfl
  | cons a r ih => cases hf : f a <;> simp [List.countP_cons, hf, ih]

theorem countP_isSome_eq_sub {α β : Type} (f : α → Option β) (l : List α) :
    l.countP (fun a => (f a).isSome) = l.length - l.countP (fun a => (f a).isNone) := by
  induction l with
  | nil => rfl
  | cons a rest ih =>
    have hle := List.countP_le_length (p := fun a => (f a).isNone) (l := rest)
    cases hf : f a <;> simp [List.countP_cons, hf, ih] <;> omega

/-- C3: each bulk loader returns a nil error together with exactly N - K
decoded objects, where N counts the rows matching the domain's pattern and
K those whose payload fails to decode: a bad row is skipped, never fatal. -/
theorem bulk_loads_tolerate_bad_rows (db : DB)
    (h1 : ((aclMatched db).map conf.ID).Nodup)
    (h2 : ((rateMatched db).map conf.ID).Nodup)
    (h3 : ((nodeMatched db).map conf.Name).Nodup) :
    (∃ als cks, LoadAclAllowListConfigs db = .ok (als, cks) ∧
      als.length = (aclMatched db).length -
        (aclMatched db).countP (fun c => (aclDecoded? c).isNone)) ∧
    (∃ sts cks, LoadRateLimitStrategyConfigs db = .ok (sts, cks) ∧
      sts.length = (rateMatched db).length -
        (rateMatched db).countP (fun c => (rateDecoded? c).isNone)) ∧
    (∃ grps, LoadNodeRouteGroups db [] = .ok grps ∧
      grps.length = (nodeMatched db).length -
        (nodeMatched db).countP (fun c => (nodeDecoded? c).isNone)) := by
  refine ⟨⟨_, _, loadAclConfigs_spec db h1, ?_⟩, ⟨_, _, loadRateConfigs_spec db h2, ?_⟩,
    ⟨_, loadNodeGroups_spec db (nodeLogical_nodup_of_name_nodup db h3), ?_⟩⟩
  · rw [aclOkPairs, length_filterMap_eq_countP,
      countP_map_isSome aclDecoded? (fun c a => (c.ID, a))]
    exact countP_isSome_eq_sub aclDecoded? (aclMatched db)
  · rw [rateOkPairs, length_filterMap_eq_countP,
      countP_map_isSome rateDecoded? (fun c s => (c.ID, s))]
    exact countP_isSome_eq_sub rateDecoded? (rateMatched db)
  · rw [nodeOkPairs, length_filterMap_eq_countP,
      countP_map_isSome nodeDecoded? (fun _ g => (g.Name, g))]
    exact countP_isSome_eq_sub nodeDecoded? (nodeMatched db)

/-- Witness for C3: one decodable and one undecodable row per domain. -/
theorem bulk_loads_tolerate_bad_rows_witness :
    ((aclMatched exDBGoodBad).map conf.ID).Nodup ∧
    ((rateMatched exDBGoodBad).map conf.ID).Nodup ∧
    ((nodeMatched exDBGoodBad).map conf.Name).Nodup ∧
    ((∃ als cks, LoadAclAllowListConfigs exDBGoodBad = .ok (als, cks) ∧
      als.length = (aclMatched exDBGoodBad).length -
        (aclMatched exDBGoodBad).countP (fun c => (aclDecoded? c).isNone)) ∧
    (∃ sts cks, LoadRateLimitStrategyConfigs exDBGoodBad = .ok (sts, cks) ∧
      sts.length = (rateMatched exDBGoodBad).length -
        (rateMatched exDBGoodBad).countP (fun c => (rateDecoded? c).isNone)) ∧
    (∃ grps, LoadNodeRouteGroups exDBGoodBad [] = .ok grps ∧
      grps.length = (nodeMatched exDBGoodBad).length -
        (nodeMatched exDBGoodBad).countP (fun c => (nodeDecoded? c).isNone))) :=
  ⟨by decide, by decide, by decide,
    bulk_loads_tolerate_bad_rows exDBGoodBad (by decide) (by decide) (by decide)⟩

theorem aclCkPairs_congr (l1 l2 : List conf)
    (h : l1.map confKeyFields = l2.map confKeyFields) : aclCkPairs l1 = aclCkPairs l2 := by
  induction l1 generalizing l2 with
  | nil =>
    have h2 : l2 = [] := by
      have h3 : List.map confKeyFields l2 = [] := by simpa using h.symm
      exact List.map_eq_nil_iff.mp h3
    subst h2
    rfl
  | cons c r ih =>
    cases l2 with
    | nil => simp at h
    | cons c2 r2 =>
      simp only [List.map_cons, List.cons.injEq] at h
      obtain ⟨hc, hr⟩ := h
      have hdec : aclDecoded? c = aclDecoded? c2 := by
        unfold aclDecoded?
        rw [decodeAcl_congr c c2 hc]
      have hid : c.ID = c2.ID := congrArg Prod.fst hc
      have hval : c.Value = c2.Value := congrArg (fun t => t.2.2) hc
      have htail : aclCkPairs r = aclCkPairs r2 := ih r2 hr
      unfold aclCkPairs at htail ⊢
      rw [List.filterMap_cons, List.filterMap_cons, htail, hdec, hid, hval]

theorem rateCkPairs_congr (l1 l2 : List conf)
    (h : l1.map confKeyFields = l2.map confKeyFields) : rateCkPairs l1 = rateCkPairs l2 := by
  induction l1 generalizing l2 with
  | nil =>
    have h2 : l2 = [] := by
      have h3 : List.map confKeyFields l2 = [] := by simpa using h.symm
      exact List.map_eq_nil_iff.mp h3
    subst h2
    rfl
  | cons c r ih =>
    cases l2 with
    | nil => simp at h
    | cons c2 r2 =>
      simp only [List.map_cons, List.cons.injEq] at h
      obtain ⟨hc, hr⟩ := h
      have hdec : rateDecoded? c = rateDecoded? c2 := by
        unfold rateDecoded?
        rw [decodeRate_congr c c2 hc]
      have hid : c.ID = c2.ID := congrArg Prod.fst hc
      have hval : c.Value = c2.Value := congrArg (fun t => t.2.2) hc
      have htail : rateCkPairs r = rateCkPairs r2 := ih r2 hr
      unfold rateCkPairs at htail ⊢
      rw [List.filterMap_cons, List.filterMap_cons, htail, hdec, hid, hval]

/-- C6: the fingerprint maps of the bulk loaders are recomputed from the
row values alone - explicitly `md5.Sum` of the value bytes keyed by row id -
so two loads over rows whose (id, name, value) columns agree byte for byte
return identical digest maps, whatever the timestamps or surrounding state. -/
theorem fingerprints_are_value_functions (db db2 : DB)
    (h1 : ((aclMatched db).map conf.ID).Nodup)
    (h2 : ((rateMatched db).map conf.ID).Nodup)
    (heqa : (aclMatched db).map confKeyFields = (aclMatched db2).map confKeyFields)
    (heqr : (rateMatched db).map confKeyFields = (rateMatched db2).map confKeyFields) :
    (∃ als cks, LoadAclAllowListConfigs db = .ok (als, cks) ∧
      cks = aclCkPairs (aclMatched db) ∧
      ∃ als2 cks2, LoadAclAllowListConfigs db2 = .ok (als2, cks2) ∧ cks2 = cks) ∧
    (∃ sts cks, LoadRateLimitStrategyConfigs db = .ok (sts, cks) ∧
      cks = rateCkPairs (rateMatched db) ∧
      ∃ sts2 cks2, LoadRateLimitStrategyConfigs db2 = .ok (sts2, cks2) ∧ cks2 = cks) := by
  have h1b : ((aclMatched db2).map conf.ID).Nodup := by
    have e : (aclMatched db2).map conf.ID = (aclMatched db).map conf.ID := by
      have e1 : (aclMatched db2).map conf.ID =
          ((aclMatched db2).map confKeyFields).map Prod.fst := by
        rw [List.map_map]
        rfl
      have e2 : (aclMatched db).map conf.ID =
          ((aclMatched db).map confKeyFields).map Prod.fst := by
        rw [List.map_map]
        rfl
      rw [e1, e2, heqa]
    rw [e]
    exact h1
  have h2b : ((rateMatched db2).map conf.ID).Nodup := by
    have e : (rateMatched db2).map conf.ID = (rateMatched db).map conf.ID := by
      have e1 : (rateMatched db2).map conf.ID =
          ((rateMatched db2).map confKeyFields).map Prod.fst := by
        rw [List.map_map]
        rfl
      have e2 : (rateMatched db).map conf.ID =
          ((rateMatched db).map confKeyFields).map Prod.fst := by
        rw [List.map_map]
        rfl
      rw [e1, e2, heqr]
    rw [e]
    exact h2
  exact ⟨⟨_, _, loadAclConfigs_spec db h1, rfl,
      _, _, loadAclConfigs_spec db2 h1b, (aclCkPairs_congr _ _ heqa).symm⟩,
    ⟨_, _, loadRateConfigs_spec db h2, rfl,
      _, _, loadRateConfigs_spec db2 h2b, (rateCkPairs_congr _ _ heqr).symm⟩⟩

/-- Witness for C6: the same rows observed at different timestamps give
the same digest maps. -/
theorem fingerprints_are_value_functions_witness :
    ((aclMatched exDBCkA).map conf.ID).Nodup ∧
    ((rateMatched exDBCkA).map conf.ID).Nodup ∧
    (aclMatched exDBCkA).map confKeyFields = (aclMatched exDBCkB).map confKeyFields ∧
    (rateMatched exDBCkA).map confKeyFields = (rateMatched exDBCkB).map confKeyFields ∧
    ((∃ als cks, LoadAclAllowListConfigs exDBCkA = .ok (als, cks) ∧
      cks = aclCkPairs (aclMatched exDBCkA) ∧
      ∃ als2 cks2, LoadAclAllowListConfigs exDBCkB = .ok (als2, cks2) ∧ cks2 = cks) ∧
    (∃ sts cks, LoadRateLimitStrategyConfigs exDBCkA = .ok (sts, cks) ∧
      cks = rateCkPairs (rateMatched exDBCkA) ∧
      ∃ sts2 cks2, LoadRateLimitStrategyConfigs exDBCkB = .ok (sts2, cks2) ∧ cks2 = cks)) :=
  ⟨by decide, by decide, by decide, by decide,
    fingerprints_are_value_functions exDBCkA exDBCkB (by decide) (by decide)
      (by decide) (by decide)⟩

/-! ## Lemmas: json string escape round trip -/

theorem hexVal?_digitChar (d : Nat) (h : d < 16) :
    hexVal? (Nat.digitChar d) = some d := by
  interval_cases d <;> decide

theorem skipWs_not_ws (c : Char) (cs : Str) (h : isWsChar c = false) :
    skipWs (c :: cs) = c :: cs := by
  simp [skipWs, h]

theorem parseStringBody_cons (c : Char) (rest : Str) :
    parseStringBody (c :: rest) =
      (if c = '"' then some ([], rest)
      else if c = '\\' then
        match rest with
        | 'u' :: h1 :: h2 :: h3 :: h4 :: r2 =>
          (match hexVal? h1, hexVal? h2, hexVal? h3, hexVal? h4 with
           | some a, some b, some cc, some d =>
             let code := ((a * 16 + b) * 16 + cc) * 16 + d
             if 55296 ≤ code ∧ code ≤ 57343 then none
             else (parseStringBody r2).map (fun p => (Char.ofNat code :: p.1, p.2))
           | _, _, _, _ => none)
        | e :: r2 =>
          (match escChar? e with
           | some ec => (parseStringBody r2).map (fun p => (ec :: p.1, p.2))
           | none => none)
        | [] => none
      else if c.toNat < 32 then none
      else (parseStringBody rest).map (fun p => (c :: p.1, p.2))) := by
  rw [parseStringBody.eq_def]
  rfl

theorem parseStringBody_uescape (c : Char) (tail : Str) (hval : c.toNat < 55296) :
    parseStringBody (jsonUEscape c.toNat ++ tail) =
      (parseStringBody tail).map (fun p => (c :: p.1, p.2)) := by
  have h4096 : c.toNat / 4096 < 16 := by omega
  have h256 : c.toNat / 256 % 16 < 16 := by omega
  have h16 : c.toNat / 16 % 16 < 16 := by omega
  have h1 : c.toNat % 16 < 16 := by omega
  have hcode : ((c.toNat / 4096 * 16 + c.toNat / 256 % 16) * 16 + c.toNat / 16 % 16) * 16 +
      c.toNat % 16 = c.toNat := by omega
  simp only [jsonUEscape, List.cons_append, List.nil_append]
  rw [parseStringBody_cons]
  rw [if_neg (by decide), if_pos rfl]
  simp only [hexVal?_digitChar _ h4096, hexVal?_digitChar _ h256, hexVal?_digitChar _ h16,
    hexVal?_digitChar _ h1, hcode]
  rw [if_neg (by omega)]
  rw [Char.ofNat_toNat]

theorem parseStringBody_escape (s : Str) (rest : Str) :
    parseStringBody (jsonEscape s ++ '"' :: rest) = some (s, rest) := by
  induction s with
  | nil => simp [jsonEscape, parseStringBody_cons]
  | cons c cs ih =>
    have hstep : jsonEscape (c :: cs) = jsonEscapeChar c ++ jsonEscape cs := by
      simp [jsonEscape]
    rw [hstep, List.append_assoc]
    by_cases h1 : c = '"'
    · subst h1
      simp [jsonEscapeChar, parseStringBody_cons, escChar?, ih]
    · by_cases h2 : c = '\\'
      · subst h2
        simp [jsonEscapeChar, parseStringBody_cons, escChar?, ih]
      · by_cases h3 : c = '\n'
        · subst h3
          simp [jsonEscapeChar, parseStringBody_cons, escChar?, ih]
        · by_cases h4 : c = '\r'
          · subst h4
            simp [jsonEscapeChar, parseStringBody_cons, escChar?, ih]
          · by_cases h5 : c = '\t'
            · subst h5
              simp [jsonEscapeChar, parseStringBody_cons, escChar?, ih]
            · by_cases h6 : c.toNat < 32 ∨ c = '<' ∨ c = '>' ∨ c = '&'
              · have hlt : c.toNat < 55296 := by
                  rcases h6 with h | h | h | h
                  · omega
                  · subst h; decide
                  · subst h; decide
                  · subst h; decide
                rw [show jsonEscapeChar c = jsonUEscape c.toNat from by
                  simp [jsonEscapeChar, h1, h2, h3, h4, h5, h6]]
                rw [parseStringBody_uescape c _ hlt, ih]
                rfl
              · by_cases h7 : c.toNat = 8232 ∨ c.toNat = 8233
                · have hlt : c.toNat < 55296 := by omega
                  rw [show jsonEscapeChar c = jsonUEscape c.toNat from by
                    simp [jsonEscapeChar, h1, h2, h3, h4, h5, h6, h7]]
                  rw [parseStringBody_uescape c _ hlt, ih]
                  rfl
                · rw [show jsonEscapeChar c = [c] from by
                    simp [jsonEscapeChar, h1, h2, h3, h4, h5, h6, h7]]
                  have hge : ¬(c.toNat < 32) := fun habs => h6 (Or.inl habs)
                  rw [List.cons_append, List.nil_append]
                  rw [parseStringBody_cons, if_neg h1, if_neg h2, if_neg hge]
                  rw [ih]
                  rfl

/-! ## Lemmas: parsing a marshalled node route group -/

theorem parseValue_string (s rest : Str) (fuel : Nat) :
    parseValue (fuel + 1) ('"' :: (jsonEscape s ++ '"' :: rest)) = some (.str s, rest) := by
  rw [parseValue, skipWs_not_ws '"' _ (by decide)]
  simp [parseStringBody_escape]

theorem parseElems_marshal (ss : List Str) (s0 : Str) (rest : Str) :
    ∀ fuel, 2 * ss.length + 2 ≤ fuel →
    parseElems fuel (marshalStrElems (s0 :: ss) ++ ']' :: rest) =
      some ((s0 :: ss).map Json.str, rest) := by
  induction ss generalizing s0 with
  | nil =>
    intro fuel hfuel
    obtain ⟨f1, rfl⟩ : ∃ f1, fuel = f1 + 1 := ⟨fuel - 1, by omega⟩
    obtain ⟨f2, rfl⟩ : ∃ f2, f1 = f2 + 1 := ⟨f1 - 1, by omega⟩
    rw [show marshalStrElems [s0] = jsonQuote s0 from rfl]
    rw [show jsonQuote s0 ++ ']' :: rest = '"' :: (jsonEscape s0 ++ '"' :: (']' :: rest)) from by
      simp [jsonQuote]]
    rw [parseElems, parseValue_string s0 (']' :: rest) f2]
    simp [skipWs_not_ws ']' _ (by decide)]
  | cons s1 ss ih =>
    intro fuel hfuel
    obtain ⟨f1, rfl⟩ : ∃ f1, fuel = f1 + 1 := ⟨fuel - 1, by omega⟩
    obtain ⟨f2, rfl⟩ : ∃ f2, f1 = f2 + 1 := ⟨f1 - 1, by omega⟩
    rw [show marshalStrElems (s0 :: s1 :: ss) =
      jsonQuote s0 ++ ',' :: marshalStrElems (s1 :: ss) from rfl]
    rw [show (jsonQuote s0 ++ ',' :: marshalStrElems (s1 :: ss)) ++ ']' :: rest =
      '"' :: (jsonEscape s0 ++ '"' :: (',' :: (marshalStrElems (s1 :: ss) ++ ']' :: rest))) from by
      simp [jsonQuote]]
    rw [parseElems, parseValue_string s0 _ f2]
    have hrec := ih s1 (f2 + 1) (by simp only [List.length_cons] at hfuel ⊢; omega)
    simp [skipWs_not_ws ',' _ (by decide), hrec]

theorem parseValue_marshal_arr (ns : List Str) (rest : Str) (fuel : Nat)
    (hfuel : 2 * ns.length + 2 ≤ fuel) :
    parseValue (fuel + 1) ('[' :: (marshalStrElems ns ++ ']' :: rest)) =
      some (.arr (ns.map Json.str), rest) := by
  rw [parseValue, skipWs_not_ws '[' _ (by decide)]
  cases ns with
  | nil =>
    simp [marshalStrElems, skipWs_not_ws ']' _ (by decide)]
  | cons s0 ss =>
    have hq : ∃ t, marshalStrElems (s0 :: ss) = '"' :: t := by
      cases ss with
      | nil => exact ⟨jsonEscape s0 ++ ['"'], by simp [marshalStrElems, jsonQuote]⟩
      | cons s1 ss2 =>
        exact ⟨jsonEscape s0 ++ '"' :: ',' :: marshalStrElems (s1 :: ss2),
          by simp [marshalStrElems, jsonQuote]⟩
    obtain ⟨t, ht⟩ := hq
    have helems := parseElems_marshal ss s0 rest fuel
      (by simp only [List.length_cons] at hfuel; omega)
    rw [ht] at helems ⊢
    rw [List.cons_append]
    simp only [List.cons_append] at helems
    simp [skipWs, isWsChar, helems]

theorem parseValue_marshal_grp (ns : List Str) (rest : Str) (fuel : Nat)
    (hfuel : 2 * ns.length + 4 ≤ fuel) :
    parseValue (fuel + 1) (marshalNodeRouteGroup ns ++ rest) =
      some (.obj [("nodes".toList, .arr (ns.map Json.str))], rest) := by
  obtain ⟨f1, rfl⟩ : ∃ f1, fuel = f1 + 1 := ⟨fuel - 1, by omega⟩
  obtain ⟨f2, rfl⟩ : ∃ f2, f1 = f2 + 1 := ⟨f1 - 1, by omega⟩
  obtain ⟨f3, rfl⟩ : ∃ f3, f2 = f3 + 1 := ⟨f2 - 1, by omega⟩
  rw [show marshalNodeRouteGroup ns ++ rest =
      lbrace :: '"' :: (jsonEscape ("nodes".toList) ++ '"' :: ':' :: '[' ::
        (marshalStrElems ns ++ ']' :: rbrace :: rest)) from by
    simp [marshalNodeRouteGroup, jsonQuote]]
  have harr := parseValue_marshal_arr ns (rbrace :: rest) (f3 + 1) (by omega)
  simp only [rbrace] at harr
  rw [parseValue, skipWs_not_ws lbrace _ (by decide)]
  simp [skipWs, isWsChar, parseMembers, parseStringBody_escape, harr, lbrace, rbrace]

theorem marshalStrElems_length (ns : List Str) :
    2 * ns.length ≤ (marshalStrElems ns).length := by
  induction ns with
  | nil => simp [marshalStrElems]
  | cons s tail ih =>
    cases tail with
    | nil => simp [marshalStrElems, jsonQuote]
    | cons s1 tail2 =>
      rw [show marshalStrElems (s :: s1 :: tail2) =
        jsonQuote s ++ ',' :: marshalStrElems (s1 :: tail2) from rfl]
      simp only [List.length_append, List.length_cons, List.length_map, jsonQuote] at ih ⊢
      omega

theorem parseJson_marshal_grp (ns : List Str) :
    parseJson (marshalNodeRouteGroup ns) =
      some (.obj [("nodes".toList, .arr (ns.map Json.str))]) := by
  unfold parseJson
  have h1 := marshalStrElems_length ns
  have hlen : (marshalNodeRouteGroup ns).length = 12 + (marshalStrElems ns).length := by
    simp [marshalNodeRouteGroup, jsonQuote, jsonEscape, jsonEscapeChar]
    omega
  have h := parseValue_marshal_grp ns [] (marshalNodeRouteGroup ns).length (by omega)
  rw [List.append_nil] at h
  rw [h]
  simp [skipWs]

theorem jsonStrsOf_map (ns : List Str) : jsonStrsOf (ns.map Json.str) = some ns := by
  induction ns with
  | nil => rfl
  | cons s tail ih => simp [jsonStrsOf, ih]

theorem unmarshal_marshal_nodes (ns : List Str) :
    applyNodesMembers [("nodes".toList, .arr (ns.map Json.str))] [] = some ns := by
  simp [applyNodesMembers, keyMatches, jsonStrList?, jsonStrsOf_map]

theorem decodeNode_marshal_roundtrip (id : Nat) (nm : Str) (ts1 ts2 : Nat) (ns : List Str)
    (hnm : nm ≠ []) :
    decodeNodeRouteGroup
      ⟨id, NodeRouteGroupConfKeyPfx ++ nm, marshalNodeRouteGroup ns, ts1, ts2⟩ =
      .ok ⟨id, nm, ns⟩ := by
  unfold decodeNodeRouteGroup
  rw [if_neg (by simp only [List.length_append]; omega)]
  rw [show (NodeRouteGroupConfKeyPfx ++ nm).drop NodeRouteGroupConfKeyPfx.length = nm from
    List.drop_left _ _]
  rw [if_neg (by simpa using hnm)]
  rw [parseJson_marshal_grp]
  have hn := unmarshal_marshal_nodes ns
  simp only [show ("nodes".toList : Str) = ['n', 'o', 'd', 'e', 's'] from rfl] at hn
  simp [hn]

/-! ## Lemmas: upsert then single load -/

theorem find?_append_none {α : Type} (p : α → Bool) (l1 l2 : List α)
    (h : l1.find? p = none) : (l1 ++ l2).find? p = l2.find? p := by
  induction l1 with
  | nil => simp
  | cons a r ih =>
    cases hp : p a with
    | true => simp [List.find?, hp] at h
    | false =>
      simp only [List.find?, hp] at h
      simp only [List.cons_append, List.find?, hp]
      exact ih h

theorem findByName_upsert_self (db : DB) (now : Nat) (n v : Str) :
    ∃ i cr, findByName (upsertByName db now n v) n = some ⟨i, n, v, cr, now⟩ := by
  unfold upsertByName
  cases hf : findByName db n with
  | none =>
    refine ⟨db.nextId, now, ?_⟩
    unfold findByName at hf ⊢
    rw [find?_append_none _ _ _ hf]
    simp [List.find?]
  | some c =>
    have hf2 : db.rows.find? (fun r => r.Name == n) = some c := hf
    have hcn : c.Name = n := by
      have := List.find?_some hf2
      simpa [beq_iff_eq] using this
    refine ⟨c.ID, c.CreatedAt, ?_⟩
    unfold findByName
    rw [find?_map_update db.rows n v now c hf2]
    rw [show ({ c with Value := v, UpdatedAt := now } : conf) =
      ⟨c.ID, c.Name, v, c.CreatedAt, now⟩ from rfl, hcn]

theorem upsert_names_nodup (db : DB) (now : Nat) (n v : Str)
    (h : (db.rows.map conf.Name).Nodup) :
    ((upsertByName db now n v).rows.map conf.Name).Nodup := by
  unfold upsertByName
  cases hf : findByName db n with
  | none =>
    have hnotin : n ∉ db.rows.map conf.Name := by
      intro habs
      obtain ⟨c, hc, hcn⟩ := List.mem_map.mp habs
      have := List.find?_eq_none.mp hf c hc
      simp [hcn] at this
    simp only [List.map_append]
    refine List.nodup_append.mpr ⟨h, List.nodup_singleton _, ?_⟩
    intro a ha hb
    simp only [List.map_cons, List.map_nil, List.mem_singleton] at hb
    subst hb
    exact hnotin ha
  | some c =>
    have hmm : (db.rows.map (fun r =>
        if r.Name == n then { r with Value := v, UpdatedAt := now } else r)).map conf.Name =
        db.rows.map conf.Name := by
      rw [List.map_map]
      apply List.map_congr_left
      intro r hr
      by_cases hrn : r.Name = n
      · simp [hrn]
      · simp [hrn]
    show ((db.rows.map (fun r =>
      if r.Name == n then { r with Value := v, UpdatedAt := now } else r)).map conf.Name).Nodup
    rw [hmm]
    exact h

theorem filter_name_eq_of_nodup (rows : List conf) (k : Str)
    (hnodup : (rows.map conf.Name).Nodup) (c : conf)
    (hfind : rows.find? (fun r => r.Name == k) = some c) :
    rows.filter (fun r => r.Name == k) = [c] := by
  induction rows with
  | nil => simp at hfind
  | cons r rest ih =>
    have hnodup2 : (r.Name :: rest.map conf.Name).Nodup := by simpa using hnodup
    rcases List.nodup_cons.mp hnodup2 with ⟨hrnotin, hrest⟩
    cases hr : (r.Name == k) with
    | true =>
      simp only [List.find?, hr] at hfind
      injection hfind with hfind
      subst hfind
      have hnone : rest.filter (fun x => x.Name == k) = [] := by
        apply List.filter_eq_nil_iff.mpr
        intro x hx
        have hxname : x.Name ∈ rest.map conf.Name := List.mem_map_of_mem conf.Name hx
        intro habs
        have h1 : r.Name = k := by simpa [beq_iff_eq] using hr
        have h2 : x.Name = k := by simpa [beq_iff_eq] using habs
        exact hrnotin (by rw [h1, ← h2]; exact hxname)
      simp [List.filter_cons, hr, hnone]
    | false =>
      simp only [List.find?, hr] at hfind
      simp [List.filter_cons, hr, ih hrest hfind]

/-- C5: StoreNodeRouteGroup on a group with a non-empty name, followed by
the single-group load, returns the stored payload unchanged: the decoded
group carries the same Nodes list under the same logical name, stamped
with the stored row's id. -/
theorem storeNodeRouteGroup_roundtrip (db : DB) (now : Nat) (grp : NodeRouteGroup)
    (hname : grp.Name ≠ [])
    (hnodup : (db.rows.map conf.Name).Nodup) :
    ∃ db2, StoreNodeRouteGroup db now grp = some db2 ∧
      ∃ g, LoadNodeRouteGroups db2 [grp.Name] = .ok [(grp.Name, g)] ∧
        g.Name = grp.Name ∧ g.Nodes = grp.Nodes ∧
        ∃ c, findByName db2 (NodeRouteGroupConfKeyPfx ++ grp.Name) = some c ∧
          g.ID = c.ID ∧ c.Value = marshalNodeRouteGroup grp.Nodes := by
  refine ⟨upsertByName db now (NodeRouteGroupConfKeyPfx ++ grp.Name)
    (marshalNodeRouteGroup grp.Nodes), rfl, ?_⟩
  obtain ⟨i, cr, hfind⟩ := findByName_upsert_self db now
    (NodeRouteGroupConfKeyPfx ++ grp.Name) (marshalNodeRouteGroup grp.Nodes)
  have hnodup2 := upsert_names_nodup db now (NodeRouteGroupConfKeyPfx ++ grp.Name)
    (marshalNodeRouteGroup grp.Nodes) hnodup
  set db2 := upsertByName db now (NodeRouteGroupConfKeyPfx ++ grp.Name)
    (marshalNodeRouteGroup grp.Nodes) with hdb2
  set row : conf := ⟨i, NodeRouteGroupConfKeyPfx ++ grp.Name,
    marshalNodeRouteGroup grp.Nodes, cr, now⟩ with hrow
  have hdec : decodeNodeRouteGroup row = .ok ⟨i, grp.Name, grp.Nodes⟩ :=
    decodeNode_marshal_roundtrip i grp.Name cr now grp.Nodes hname
  have hfilter : db2.rows.filter
      (fun c => [NodeRouteGroupConfKeyPfx ++ grp.Name].contains c.Name) = [row] := by
    have hconv : (fun c : conf => [NodeRouteGroupConfKeyPfx ++ grp.Name].contains c.Name) =
        (fun c : conf => c.Name == NodeRouteGroupConfKeyPfx ++ grp.Name) := by
      funext c
      by_cases h : c.Name = NodeRouteGroupConfKeyPfx ++ grp.Name <;>
        simp [List.contains, h]
    rw [hconv]
    exact filter_name_eq_of_nodup db2.rows _ hnodup2 row hfind
  refine ⟨⟨i, grp.Name, grp.Nodes⟩, ?_, rfl, rfl, row, hfind, rfl, rfl⟩
  unfold LoadNodeRouteGroups
  simp only [List.map_cons, List.map_nil, List.isEmpty_cons, if_false, Bool.false_eq_true,
    if_neg]
  rw [hfilter]
  simp [nodeRouteGroupsLoop, hdec, assocPut]

/-- Witness for C5: storing and reloading a concrete group. -/
theorem storeNodeRouteGroup_roundtrip_witness :
    ("g1".toList : Str) ≠ [] ∧
    ((DB.empty).rows.map conf.Name).Nodup ∧
    (∃ db2, StoreNodeRouteGroup DB.empty 3 ⟨0, "g1".toList, ["http://a:80".toList]⟩ = some db2 ∧
      ∃ g, LoadNodeRouteGroups db2 ["g1".toList] = .ok [("g1".toList, g)] ∧
        g.Name = "g1".toList ∧ g.Nodes = ["http://a:80".toList] ∧
        ∃ c, findByName db2 (NodeRouteGroupConfKeyPfx ++ "g1".toList) = some c ∧
          g.ID = c.ID ∧ c.Value = marshalNodeRouteGroup ["http://a:80".toList]) :=
  ⟨by decide, by decide,
    storeNodeRouteGroup_roundtrip DB.empty 3 ⟨0, "g1".toList, ["http://a:80".toList]⟩
      (by decide) (by decide)⟩
